import Mathlib

/-!
Verification of the go2jail engine against its specification.

The Go sources are shallowly embedded: byte slices become `List Nat`,
strings become `List Char`, machine integers become `Nat`/`Int` with
explicit bounds where they matter, and in-place mutation becomes
explicit state passing.  Each definition mirrors one function of the
repository (or of the Go standard library where the repository calls
into it); the corresponding file and function are named in the doc
comment.
-/

namespace Go2Jail

/-- Go `[]byte` values are modelled as lists of naturals (each byte in 0..255). -/
abbrev GoBytes := List Nat

/-- Go `string` values are modelled as lists of characters. -/
abbrev GoStr := List Char

/-! ## `net.IP` (Go standard library, package `net`)

`go2jail` stores addresses as `net.IP`, a byte slice holding either the
4-byte or the 16-byte form of an address.  The operations used by
`config.go` are embedded here. -/

/-- `net.IP`: an address as a byte slice. -/
abbrev IP := GoBytes

/-- `net.v4InV6Prefix`: the 12-byte prefix of an IPv4-in-IPv6 address. -/
def v4InV6Prefix : GoBytes := [0, 0, 0, 0, 0, 0, 0, 0, 0, 0, 0xff, 0xff]

/-- `net.IPv4zero` (`net.IPv4(0,0,0,0)`, stored in 16-byte form). -/
def ipv4Zero : IP := v4InV6Prefix ++ [0, 0, 0, 0]

/-- `net.IPv6unspecified`. -/
def ipv6Unspecified : IP := List.replicate 16 0

/-- `net.IPv6loopback`. -/
def ipv6Loopback : IP := List.replicate 15 0 ++ [1]

/-- `net.IP.To4`: the 4-byte form of an IPv4 address, `none` otherwise.
The Go test `isZeros(ip[0:10]) && ip[10] == 0xff && ip[11] == 0xff` is
written as equality of the first 12 bytes with `v4InV6Prefix`. -/
def ipTo4 (ip : IP) : Option IP :=
  if ip.length = 4 then some ip
  else if ip.length = 16 ∧ ip.take 12 = v4InV6Prefix then some (ip.drop 12)
  else none

/-- `net.IP.Equal`: addresses compare equal across the 4-byte and
16-byte representations. -/
def ipEqual (ip x : IP) : Bool :=
  if ip.length = x.length then ip == x
  else if ip.length = 4 ∧ x.length = 16 then
    (x.take 12 == v4InV6Prefix) && (ip == x.drop 12)
  else if ip.length = 16 ∧ x.length = 4 then
    (ip.take 12 == v4InV6Prefix) && (ip.drop 12 == x)
  else false

/-- `net.IP.IsLoopback`. -/
def ipIsLoopback (ip : IP) : Bool :=
  match ipTo4 ip with
  | some ip4 => ip4.getD 0 0 == 127
  | none => ipEqual ip ipv6Loopback

/-- `net.IP.IsUnspecified`. -/
def ipIsUnspecified (ip : IP) : Bool :=
  ipEqual ip ipv4Zero || ipEqual ip ipv6Unspecified

/-- `net.IP.IsMulticast`. -/
def ipIsMulticast (ip : IP) : Bool :=
  match ipTo4 ip with
  | some ip4 => (ip4.getD 0 0 &&& 0xf0) == 0xe0
  | none => ip.length == 16 && ip.getD 0 0 == 0xff

/-- `net.IPNet`: a CIDR block (network number and mask). -/
structure IPNet where
  ip : IP
  mask : GoBytes
  deriving Repr, DecidableEq

/-- Helper for `networkNumberAndMask`: the `switch len(m)` body. -/
def nnmMask (ip : IP) (m : GoBytes) : IP × GoBytes :=
  if m.length = 4 then
    if ip.length = 4 then (ip, m) else ([], [])
  else if m.length = 16 then
    if ip.length = 4 then (ip, m.drop 12) else (ip, m)
  else ([], [])

/-- `net.networkNumberAndMask`: normalizes a block's network number to the
4-byte form when possible and trims the mask to match.  Go returns a pair
of nil slices on malformed blocks, modelled as `([], [])`. -/
def networkNumberAndMask (n : IPNet) : IP × GoBytes :=
  match ipTo4 n.ip with
  | some ip4 => nnmMask ip4 n.mask
  | none => if n.ip.length = 16 then nnmMask n.ip n.mask else ([], [])

/-- `net.IPNet.Contains`. -/
def ipnetContains (n : IPNet) (ip0 : IP) : Bool :=
  let nnm := networkNumberAndMask n
  let nn := nnm.1
  let m := nnm.2
  let ip := match ipTo4 ip0 with
    | some x => x
    | none => ip0
  if ip.length = nn.length then
    (List.range ip.length).all fun i =>
      (nn.getD i 0 &&& m.getD i 0) == (ip.getD i 0 &&& m.getD i 0)
  else false

/-! ## `Allows` (src/config.go) -/

/-- `Allows` (src/config.go): an ordered collection of CIDR blocks. -/
abbrev Allows := List IPNet

/-- `Allows.Contains` (src/config.go lines 317-327): loopback and
unspecified addresses are allowed unconditionally, every other address
is allowed iff some block covers it.  (The source has no multicast
check.) -/
def Allows.contains (a : Allows) (ip : IP) : Bool :=
  if ipIsLoopback ip || ipIsUnspecified ip then true
  else a.any fun l => ipnetContains l ip

/-! ## C1: `Allows.Contains` characterization -/

/-- **C1 (counterexample).**  The claim states that `contains(ip)` is true
for every multicast address unconditionally.  The multicast address
`224.0.0.1` against an empty allow list refutes it: `Allows.Contains`
(src/config.go:317) tests only loopback and unspecified, so it returns
`false` here although the claim requires `true`. -/
theorem allows_contains_multicast_cex :
    ipIsMulticast [224, 0, 0, 1] = true ∧
    Allows.contains [] [224, 0, 0, 1] = false := by
  constructor <;> rfl

/-- **C1 (amended).**  For every allow list `A` and address `ip`,
`A.Contains ip` returns true whenever `ip` is loopback or unspecified,
unconditionally of the configured CIDR blocks; for any other address
(multicast included, which receives no special treatment) it returns
true iff some CIDR block of `A` covers `ip`. -/
theorem allows_contains_spec (a : Allows) (ip : IP) :
    (ipIsLoopback ip = true ∨ ipIsUnspecified ip = true →
      Allows.contains a ip = true) ∧
    (ipIsLoopback ip = false → ipIsUnspecified ip = false →
      (Allows.contains a ip = true ↔ ∃ l ∈ a, ipnetContains l ip = true)) := by
  constructor
  · intro h
    unfold Allows.contains
    rcases h with h | h <;> simp [h]
  · intro h1 h2
    unfold Allows.contains
    simp [h1, h2, List.any_eq_true]

/-- **C1 (witness).**  Concrete instance of `allows_contains_spec`:
the loopback address `127.0.0.1` is allowed by the empty allow list,
and `8.8.8.8` is allowed there iff some block covers it (there is none). -/
theorem allows_contains_spec_witness :
    Allows.contains [] [127, 0, 0, 1] = true ∧
    ¬ Allows.contains [] [8, 8, 8, 8] = true := by
  refine ⟨(allows_contains_spec [] [127, 0, 0, 1]).1 (Or.inl (by rfl)), ?_⟩
  intro hc
  have h := ((allows_contains_spec [] [8, 8, 8, 8]).2 (by rfl) (by rfl)).mp hc
  simp at h

/-! ## `RingBuffer` (src/utils.go lines 31-74) -/

/-- `RingBuffer` (src/utils.go): a fixed-capacity byte sink.  `capv` is
the capacity fixed by `NewRingBuffer` (`cap(r.buf)`), `buf` the current
contents.  The mutex guards concurrency only and has no sequential
content. -/
structure RingBuffer where
  capv : Nat
  buf : GoBytes
  deriving Repr, DecidableEq

/-- `NewRingBuffer` (src/utils.go lines 36-40). -/
def NewRingBuffer (size : Nat) : RingBuffer :=
  { capv := size, buf := [] }

/-- `RingBuffer.Write` (src/utils.go lines 50-74): returns the consumed
count and the updated buffer. -/
def RingBuffer.write (r : RingBuffer) (b : GoBytes) : Nat × RingBuffer :=
  if b.length = 0 then (0, r)
  else if r.capv ≤ b.length then
    (b.length, { r with buf := b.drop (b.length - r.capv) })
  else
    let free := r.capv - r.buf.length
    if b.length ≤ free then
      (b.length, { r with buf := r.buf ++ b })
    else
      let w := r.capv - b.length
      let cur := r.buf.length
      (b.length, { r with buf := r.buf.drop (cur - w) ++ b })

/-- Feed a sequence of writes to a ring buffer. -/
def RingBuffer.writeAll (r : RingBuffer) (ws : List GoBytes) : RingBuffer :=
  ws.foldl (fun r b => (r.write b).2) r

/-- The trailing `n` bytes of `xs` (all of `xs` when `n ≥ xs.length`). -/
def tailBytes (xs : GoBytes) (n : Nat) : GoBytes :=
  xs.drop (xs.length - n)

/-- One write step preserves the retention invariant: if the buffer holds
the trailing bytes of everything written so far, it still does after
writing `b`. -/
theorem RingBuffer.write_step (C : Nat) (W b : GoBytes) :
    (RingBuffer.write ⟨C, tailBytes W C⟩ b).2 = ⟨C, tailBytes (W ++ b) C⟩ := by
  unfold RingBuffer.write tailBytes
  have hlen : (W.drop (W.length - C)).length = W.length - (W.length - C) :=
    List.length_drop _ _
  by_cases hb : b.length = 0
  · have hbnil : b = [] := List.length_eq_zero.mp hb
    simp [hbnil]
  · simp only [hb, if_false]
    by_cases hcap : C ≤ b.length
    · simp only [hcap, if_true]
      have h1 : W.length + b.length - C = W.length + (b.length - C) := by omega
      have h2 : (W ++ b).drop (W.length + (b.length - C)) = b.drop (b.length - C) :=
        List.drop_append (b.length - C)
      simp [h1, h2]
    · simp only [hcap, if_false]
      push_neg at hcap
      by_cases hfree : b.length ≤ C - (W.drop (W.length - C)).length
      · simp only [hfree, if_true]
        -- the current contents fit: `W` is shorter than the capacity
        have hW : W.length < C := by omega
        have hWd : W.length - C = 0 := by omega
        have hsum : W.length + b.length - C = 0 := by omega
        simp [hWd, hsum]
      · simp only [hfree, if_false]
        push_neg at hfree
        by_cases hWC : W.length ≤ C
        · have hWd : W.length - C = 0 := by omega
          have hk : W.length + b.length - C ≤ W.length := by omega
          have h2 : (W ++ b).drop (W.length + b.length - C) =
              W.drop (W.length + b.length - C) ++ b :=
            List.drop_append_of_le_length hk
          have h3 : W.length - (C - b.length) = W.length + b.length - C := by omega
          simp [hWd, h2, h3]
        · push_neg at hWC
          have hk : W.length + b.length - C ≤ W.length := by omega
          have h2 : (W ++ b).drop (W.length + b.length - C) =
              W.drop (W.length + b.length - C) ++ b :=
            List.drop_append_of_le_length hk
          have h3 := List.drop_drop
            ((W.drop (W.length - C)).length - (C - b.length)) (W.length - C) W
          simp only [RingBuffer.mk.injEq, true_and, List.length_append]
          rw [h2, h3, hlen]
          have h5 : W.length - C + (W.length - (W.length - C) - (C - b.length)) =
              W.length + b.length - C := by omega
          rw [h5]

/-- Retention invariant over a whole write sequence. -/
theorem RingBuffer.writeAll_eq (C : Nat) (ws : List GoBytes) :
    RingBuffer.writeAll (NewRingBuffer C) ws = ⟨C, tailBytes ws.flatten C⟩ := by
  suffices h : ∀ (W : GoBytes),
      RingBuffer.writeAll ⟨C, tailBytes W C⟩ ws = ⟨C, tailBytes (W ++ ws.flatten) C⟩ by
    have h0 := h []
    simpa [NewRingBuffer, tailBytes] using h0
  induction ws with
  | nil => intro W; simp [RingBuffer.writeAll, tailBytes]
  | cons b ws ih =>
    intro W
    simp only [RingBuffer.writeAll, List.foldl_cons, List.flatten_cons]
    have hstep := RingBuffer.write_step C W b
    rw [hstep]
    have := ih (W ++ b)
    simpa [RingBuffer.writeAll, List.append_assoc] using this

/-- **C4.**  For every capacity `C` and sequence of writes with
concatenation `W`: each write returns its input length as the consumed
count, after the writes the buffer holds the trailing
`min (len W) C` bytes of `W` (so a single write of length ≥ `C` retains
only its trailing `C` bytes), and the buffer size never exceeds `C`. -/
theorem ringBuffer_write_spec (C : Nat) (ws : List GoBytes)
    (r : RingBuffer) (b : GoBytes) :
    (RingBuffer.writeAll (NewRingBuffer C) ws).buf =
      tailBytes ws.flatten (min ws.flatten.length C) ∧
    (RingBuffer.writeAll (NewRingBuffer C) ws).buf.length ≤ C ∧
    (RingBuffer.write r b).1 = b.length := by
  have hall := RingBuffer.writeAll_eq C ws
  refine ⟨?_, ?_, ?_⟩
  · rw [hall]
    show tailBytes ws.flatten C = tailBytes ws.flatten (min ws.flatten.length C)
    unfold tailBytes
    have h : ws.flatten.length - min ws.flatten.length C = ws.flatten.length - C := by
      omega
    rw [h]
  · rw [hall]
    show (tailBytes ws.flatten C).length ≤ C
    unfold tailBytes
    have := List.length_drop (ws.flatten.length - C) ws.flatten
    omega
  · unfold RingBuffer.write
    by_cases hb : b.length = 0
    · simp [hb]
    · by_cases hcap : r.capv ≤ b.length <;>
        by_cases hfree : b.length ≤ r.capv - r.buf.length <;>
        simp [hb, hcap, hfree]

/-! ## `time.Duration` formatting (Go standard library, package `time`)

`time.Duration` is an `int64` count of nanoseconds, modelled as `Int`. -/

/-- `time.Nanosecond`. -/
def nanosecondD : Int := 1
/-- `time.Microsecond`. -/
def microsecondD : Int := 1000
/-- `time.Millisecond`. -/
def millisecondD : Int := 1000000
/-- `time.Second`. -/
def secondD : Int := 1000000000
/-- `time.Minute`. -/
def minuteD : Int := 60000000000
/-- `time.Hour`. -/
def hourD : Int := 3600000000000

/-- Loop body of `time.fmtFrac`: formats `prec` fractional digits of `v`
(buffer prepending replaces Go's right-to-left buffer writes), omitting
trailing zeros; returns the output, the remaining value and whether any
digit was printed. -/
def fmtFracGo : Nat → Nat → Bool → GoStr → GoStr × Nat × Bool
  | 0, v, print, acc => (acc, v, print)
  | p + 1, v, print, acc =>
    let digit := v % 10
    let print' := print || digit != 0
    let acc' := if print' then Char.ofNat (digit + 48) :: acc else acc
    fmtFracGo p (v / 10) print' acc'

/-- `time.fmtFrac`: fraction digits plus the decimal point when any
digit was printed. -/
def fmtFrac (v : Nat) (prec : Nat) (acc : GoStr) : GoStr × Nat :=
  let r := fmtFracGo prec v false acc
  (if r.2.2 then '.' :: r.1 else r.1, r.2.1)

/-- Loop body of `time.fmtInt`.  The fuel bounds the digit count; 32
matches Go's 32-byte buffer and exceeds the 20 digits of any `uint64`. -/
def fmtIntGo : Nat → Nat → GoStr → GoStr
  | 0, _, acc => acc
  | f + 1, v, acc =>
    if v = 0 then acc
    else fmtIntGo f (v / 10) (Char.ofNat (v % 10 + 48) :: acc)

/-- `time.fmtInt`: decimal digits of `v` prepended to `acc`. -/
def fmtInt (v : Nat) (acc : GoStr) : GoStr :=
  if v = 0 then '0' :: acc else fmtIntGo 32 v acc

/-- `time.Duration.String`. -/
def durationString (d : Int) : GoStr :=
  let neg := d < 0
  let u := d.natAbs
  if u < secondD.natAbs then
    if u = 0 then ['0', 's']
    else
      let pt : Nat × GoStr :=
        if u < microsecondD.natAbs then (0, ['n', 's'])
        else if u < millisecondD.natAbs then (3, ['µ', 's'])
        else (6, ['m', 's'])
      let fr := fmtFrac u pt.1 pt.2
      let s := fmtInt fr.2 fr.1
      if neg then '-' :: s else s
  else
    let fr := fmtFrac u 9 ['s']
    let acc := fmtInt (fr.2 % 60) fr.1
    let u2 := fr.2 / 60
    let s :=
      if u2 > 0 then
        let acc2 := fmtInt (u2 % 60) ('m' :: acc)
        let u3 := u2 / 60
        if u3 > 0 then fmtInt u3 ('h' :: acc2) else acc2
      else acc
    if neg then '-' :: s else s

/-- `fmt.Sprintf "%d"` for an integer. -/
def goItoa (n : Int) : GoStr :=
  if n < 0 then '-' :: fmtInt n.natAbs [] else fmtInt n.natAbs []

/-- `formatDuration` (src/utils.go lines 359-387).  The Go guard
`d.Seconds() < 0` holds exactly when `d < 0` (the float conversion
preserves sign), and `d.Milliseconds()` is `d / 1e6` with Go's
truncating division. -/
def formatDuration (d : Int) : GoStr :=
  if d < 0 then
    goItoa (d.tdiv 1000000) ++ ['m', 's']
  else if d = secondD then ['s']
  else if d = millisecondD then ['m', 's']
  else if d = minuteD then ['m']
  else if d = hourD then ['h']
  else if d = 24 * hourD then ['d']
  else
    let s := durationString d
    if ['m', '0', 's'].isSuffixOf s then s.take (s.length - 2)
    else if ['h', '0', 'm', '0', 's'].isSuffixOf s then s.take (s.length - 4)
    else s

/-! ## `Limiter` (src/utils.go lines 250-357)

The mutex, wait group and the 10-second background sweeper goroutine
(which only deletes expired entries, never observed by `Add`) are
concurrency plumbing and carry no sequential content; the map is
modelled as an association list and `time.Now()` is passed explicitly. -/

/-- `counterStats` (src/utils.go lines 250-253). -/
structure CounterStats where
  n : Int
  expiration : Int
  deriving Repr, DecidableEq

/-- `Limiter` (src/utils.go lines 255-262): `max`/`timeout` come from the
rate specification, `mp` is the per-key window table. -/
structure Limiter where
  max : Int
  timeout : Int
  mp : List (GoStr × CounterStats)
  deriving Repr, DecidableEq

/-- Go map read `c.mp[s]`. -/
def mapGet (mp : List (GoStr × CounterStats)) (k : GoStr) : Option CounterStats :=
  (mp.find? fun e => e.1 == k).map (·.2)

/-- Go map write `c.mp[s] = v`: overwrite the entry for `k` when present,
insert it otherwise. -/
def mapSet : List (GoStr × CounterStats) → GoStr → CounterStats →
    List (GoStr × CounterStats)
  | [], k, v => [(k, v)]
  | e :: mp, k, v => if e.1 == k then (k, v) :: mp else e :: mapSet mp k v

/-- `Limiter.Add` (src/utils.go lines 328-357) for a non-nil receiver:
returns the description string, the fire flag and the updated limiter.
`now` is the value of `time.Now()` during the call, in nanoseconds. -/
def Limiter.add (c0 : Limiter) (now : Int) (s : GoStr) : GoStr × Bool × Limiter :=
  let c := if c0.timeout = 0 then { c0 with timeout := secondD } else c0
  let v : CounterStats :=
    match mapGet c.mp s with
    | some v => if v.expiration < now then ⟨0, now + c.timeout⟩ else v
    | none => ⟨0, now + c.timeout⟩
  let v' : CounterStats := ⟨v.n + 1, v.expiration⟩
  let c' := { c with mp := mapSet c.mp s v' }
  let ts := formatDuration c.timeout
  if c.max ≤ v'.n then
    (goItoa v'.n ++ '/' :: ts ++ '>' :: '=' :: goItoa c.max ++ '/' :: ts, true, c')
  else
    (goItoa v'.n ++ '/' :: ts ++ '<' :: goItoa c.max ++ '/' :: ts, false, c')

/-- `Limiter.Add` including the nil-receiver case (a nil `*Limiter`
returns `("1/s", true)` and keeps no state). -/
def LimiterOpt.add : Option Limiter → Int → GoStr → GoStr × Bool × Option Limiter
  | none, _, _ => (['1', '/', 's'], true, none)
  | some c, now, s =>
    let r := c.add now s
    (r.1, r.2.1, some r.2.2)

/-- Run a contiguous sequence of `Add` calls for key `k` at the given
times, collecting the fire flags. -/
def Limiter.addTimes (c : Limiter) (k : GoStr) : List Int → List Bool
  | [] => []
  | t :: ts =>
    let r := c.add t k
    r.2.1 :: r.2.2.addTimes k ts

theorem mapGet_mapSet (mp : List (GoStr × CounterStats)) (k : GoStr) (v : CounterStats) :
    mapGet (mapSet mp k v) k = some v := by
  induction mp with
  | nil =>
    simp only [mapSet, mapGet, List.find?, beq_self_eq_true]
    rfl
  | cons e mp ih =>
    by_cases he : (e.1 == k) = true
    · simp only [mapSet, if_pos he, mapGet, List.find?, beq_self_eq_true]
      rfl
    · have he' : (e.1 == k) = false := by simpa using he
      simp only [mapSet, if_neg he, mapGet, List.find?, he']
      exact ih

/-- The fire flag of one `Add` call on an unexpired entry `⟨j, E⟩`. -/
theorem Limiter.add_fire_entry (M T now : Int) (mp : List (GoStr × CounterStats))
    (k : GoStr) (j E : Int) (hT : T ≠ 0)
    (hget : mapGet mp k = some ⟨j, E⟩) (hE : ¬ E < now) :
    (Limiter.add ⟨M, T, mp⟩ now k).2.1 = decide (M ≤ j + 1) ∧
    (Limiter.add ⟨M, T, mp⟩ now k).2.2 = ⟨M, T, mapSet mp k ⟨j + 1, E⟩⟩ := by
  simp only [Limiter.add, if_neg hT, hget, if_neg hE]
  split_ifs with h <;> simp [h]

/-- The fire flag of one `Add` call on a fresh key (absent or expired). -/
theorem Limiter.add_fire_fresh (M T now : Int) (mp : List (GoStr × CounterStats))
    (k : GoStr) (hT : T ≠ 0)
    (hget : mapGet mp k = none ∨
      ∃ v, mapGet mp k = some v ∧ v.expiration < now) :
    (Limiter.add ⟨M, T, mp⟩ now k).2.1 = decide (M ≤ 1) ∧
    (Limiter.add ⟨M, T, mp⟩ now k).2.2 =
      ⟨M, T, mapSet mp k ⟨1, now + T⟩⟩ := by
  rcases hget with h | ⟨v, hv, hexp⟩
  · simp only [Limiter.add, if_neg hT, h]
    norm_num
    split_ifs with h2 <;> simp [h2]
  · simp only [Limiter.add, if_neg hT, hv, if_pos hexp]
    norm_num
    split_ifs with h2 <;> simp [h2]

/-- Steady-state lemma for C3: with an unexpired entry `⟨j, E⟩` for `k`
and every call time at most `E`, the `i`-th further call (0-based)
fires iff `j + i + 1 ≥ max`. -/
theorem Limiter.addTimes_steady (M T : Int) (hT : T ≠ 0) :
    ∀ (ts : List Int) (mp : List (GoStr × CounterStats)) (k : GoStr)
      (j E : Int),
      mapGet mp k = some ⟨j, E⟩ →
      (∀ t ∈ ts, ¬ E < t) →
      Limiter.addTimes ⟨M, T, mp⟩ k ts =
        (List.range ts.length).map fun i : Nat => decide (M ≤ j + (i : Int) + 1) := by
  intro ts
  induction ts with
  | nil => intro mp k j E _ _; simp [Limiter.addTimes]
  | cons t ts ih =>
    intro mp k j E hget hts
    have hE : ¬ E < t := hts t (by simp)
    obtain ⟨hfire, hstate⟩ :=
      Limiter.add_fire_entry M T t mp k j E hT hget hE
    show (Limiter.add ⟨M, T, mp⟩ t k).2.1 ::
        (Limiter.add ⟨M, T, mp⟩ t k).2.2.addTimes k ts = _
    rw [hfire, hstate]
    have hnext := ih (mapSet mp k ⟨j + 1, E⟩) k (j + 1) E
      (mapGet_mapSet mp k ⟨j + 1, E⟩) (fun t ht => hts t (by simp [ht]))
    rw [hnext]
    rw [List.length_cons, List.range_succ_eq_map, List.map_cons, List.map_map]
    refine congrArg₂ List.cons ?_ ?_
    · norm_num
    · refine congrArg₂ List.map ?_ rfl
      funext i
      simp only [Function.comp_apply]
      congr 1
      push_cast
      ring

/-- **C3.**  For every rate limiter with positive `max` and positive
window `T`, and every key `k` starting fresh (no entry, or an expired
one): among a contiguous sequence of `add(k)` calls all within the
window opened by the first call (every call time at most `t₀ + T`),
the `i`-th call (1-based) returns `fire = true` iff `i ≥ max`; that is,
the first `max − 1` calls return false, the call bringing the count to
`max` returns true, and so does every later call of the window. -/
theorem limiter_add_window_spec (M T : Int) (mp : List (GoStr × CounterStats))
    (k : GoStr) (t0 : Int) (ts : List Int)
    (hM : 1 ≤ M) (hT : 0 < T)
    (hfresh : mapGet mp k = none ∨ ∃ v, mapGet mp k = some v ∧ v.expiration < t0)
    (hts : ∀ t ∈ ts, t ≤ t0 + T) :
    Limiter.addTimes ⟨M, T, mp⟩ k (t0 :: ts) =
      (List.range (ts.length + 1)).map fun i : Nat => decide (M ≤ (i : Int) + 1) := by
  have hT0 : T ≠ 0 := by omega
  obtain ⟨hfire, hstate⟩ := Limiter.add_fire_fresh M T t0 mp k hT0 hfresh
  show (Limiter.add ⟨M, T, mp⟩ t0 k).2.1 ::
      (Limiter.add ⟨M, T, mp⟩ t0 k).2.2.addTimes k ts = _
  rw [hfire, hstate]
  have hrest := Limiter.addTimes_steady M T hT0 ts (mapSet mp k ⟨1, t0 + T⟩) k 1 (t0 + T)
    (mapGet_mapSet mp k ⟨1, t0 + T⟩) (fun t ht => by have := hts t ht; omega)
  rw [hrest]
  rw [List.range_succ_eq_map, List.map_cons, List.map_map]
  refine congrArg₂ List.cons ?_ ?_
  · norm_num
  · refine congrArg₂ List.map ?_ rfl
    funext i
    simp only [Function.comp_apply]
    congr 1
    push_cast
    ring

/-- **C3 (witness).**  A `2/1s` limiter with two calls in one window:
the fire flags are `[false, true]`. -/
theorem limiter_add_window_spec_witness :
    Limiter.addTimes ⟨2, 1000000000, []⟩ ['a'] [0, 5] = [false, true] := by
  have h := limiter_add_window_spec 2 1000000000 [] ['a'] 0 [5]
    (by norm_num) (by norm_num) (Or.inl (by rfl)) (by intro t ht; simp at ht; omega)
  rw [h]
  rfl

/-! ## `chanWriter` (src/utils.go lines 648-686)

The byte-stream adapter feeding the line channel.  The channel is
modelled by the ordered list of messages sent so far (`lines`); `Send`
on an open channel always succeeds, so the error path of `Write` is
never taken here. -/

/-- The newline byte. -/
def nlByte : Nat := 10

/-- `bytes.IndexByte`. -/
def indexByte : GoBytes → Nat → Option Nat
  | [], _ => none
  | b :: bs, c => if b = c then some 0 else (indexByte bs c).map (· + 1)

/-- `chanWriter` state: the pending partial line and the messages sent. -/
structure ChanWriter where
  buf : GoBytes
  lines : List GoBytes
  deriving Repr, DecidableEq

/-- The `for len(p) > 0` loop of `chanWriter.Write`.  Every iteration
consumes at least one byte of `p`, so `fuel = p.length + 1` always
suffices; the fuel-0 branch is unreachable then. -/
def chanWriterLoop : Nat → GoBytes → List GoBytes → GoBytes → GoBytes × List GoBytes
  | 0, buf, lines, _ => (buf, lines)
  | f + 1, buf, lines, p =>
    match indexByte p nlByte with
    | some idx =>
      chanWriterLoop f [] (lines ++ [buf ++ p.take idx]) (p.drop (idx + 1))
    | none => (buf ++ p, lines)

/-- `chanWriter.Write` (src/utils.go lines 666-686): split `p` on
newlines, then force-flush a buffer that reached 24 KiB.  Returns the
reported byte count and the new state. -/
def ChanWriter.write (w : ChanWriter) (p : GoBytes) : Nat × ChanWriter :=
  let r := chanWriterLoop (p.length + 1) w.buf w.lines p
  if 24 * 1024 ≤ r.1.length then (p.length, ⟨[], r.2 ++ [r.1]⟩)
  else (p.length, ⟨r.1, r.2⟩)

/-- `chanWriter.Close` (src/utils.go lines 659-664): the channel
contents after closing, with a nonempty pending buffer emitted as a
final line. -/
def ChanWriter.close (w : ChanWriter) : List GoBytes :=
  if 0 < w.buf.length then w.lines ++ [w.buf] else w.lines

/-- Run a sequence of writes from the initial state. -/
def ChanWriter.run (ws : List GoBytes) : ChanWriter :=
  ws.foldl (fun w p => (w.write p).2) ⟨[], []⟩

/-- `true` iff no write of the sequence triggers the 24 KiB force flush. -/
def ChanWriter.noForceFlush : ChanWriter → List GoBytes → Bool
  | _, [] => true
  | w, p :: ps =>
    let r := chanWriterLoop (p.length + 1) w.buf w.lines p
    if 24 * 1024 ≤ r.1.length then false
    else ChanWriter.noForceFlush ⟨r.1, r.2⟩ ps

/-- Split a byte string at every newline, keeping all (possibly empty)
segments; never returns the empty list. -/
def splitNL : GoBytes → List GoBytes
  | [] => [[]]
  | b :: bs =>
    if b = nlByte then [] :: splitNL bs
    else
      match splitNL bs with
      | s :: rest => (b :: s) :: rest
      | [] => [[b]]

/-- Join lines with single newlines (inverse of `splitNL`). -/
def joinNL : List GoBytes → GoBytes
  | [] => []
  | [l] => l
  | l :: ls => l ++ nlByte :: joinNL ls

theorem splitNL_ne_nil (x : GoBytes) : splitNL x ≠ [] := by
  cases x with
  | nil => simp [splitNL]
  | cons b bs =>
    simp only [splitNL]
    split_ifs
    · simp
    · cases h : splitNL bs <;> simp

theorem joinNL_splitNL (x : GoBytes) : joinNL (splitNL x) = x := by
  induction x with
  | nil => rfl
  | cons b bs ih =>
    simp only [splitNL]
    split_ifs with hb
    · cases h : splitNL bs with
      | nil => exact absurd h (splitNL_ne_nil bs)
      | cons s rest =>
        rw [h] at ih
        subst hb
        simp only [joinNL]
        rw [ih]
        rfl
    · cases h : splitNL bs with
      | nil => exact absurd h (splitNL_ne_nil bs)
      | cons s rest =>
        rw [h] at ih
        cases rest with
        | nil => simp only [joinNL] at ih ⊢; rw [ih]
        | cons r rs =>
          simp only [joinNL] at ih ⊢
          rw [List.cons_append, ih]

theorem splitNL_no_newline (x : GoBytes) (h : ¬ nlByte ∈ x) : splitNL x = [x] := by
  induction x with
  | nil => rfl
  | cons b bs ih =>
    obtain ⟨h1, h2⟩ : ¬ nlByte = b ∧ ¬ nlByte ∈ bs := by simpa using h
    simp only [splitNL]
    rw [if_neg (show ¬ b = nlByte from fun hb => h1 hb.symm)]
    rw [ih h2]

theorem splitNL_append_newline (x y : GoBytes) (h : ¬ nlByte ∈ x) :
    splitNL (x ++ nlByte :: y) = x :: splitNL y := by
  induction x with
  | nil => simp [splitNL]
  | cons b bs ih =>
    obtain ⟨h1, h2⟩ : ¬ nlByte = b ∧ ¬ nlByte ∈ bs := by simpa using h
    simp only [List.cons_append, splitNL]
    rw [if_neg (show ¬ b = nlByte from fun hb => h1 hb.symm)]
    have ha : bs.append (nlByte :: y) = bs ++ nlByte :: y := rfl
    rw [ha, ih h2]

theorem splitNL_segments_no_newline (x : GoBytes) :
    ∀ s ∈ splitNL x, ¬ nlByte ∈ s := by
  induction x with
  | nil =>
    intro s hs
    simp only [splitNL, List.mem_singleton] at hs
    simp [hs]
  | cons b bs ih =>
    intro s hs
    by_cases hb : b = nlByte
    · simp only [splitNL] at hs
      rw [if_pos hb] at hs
      rcases List.mem_cons.mp hs with h1 | h1
      · simp [h1]
      · exact ih s h1
    · simp only [splitNL] at hs
      rw [if_neg hb] at hs
      cases h : splitNL bs with
      | nil => exact absurd h (splitNL_ne_nil bs)
      | cons t rest =>
        rw [h] at hs
        rcases List.mem_cons.mp hs with h1 | h1
        · subst h1
          have ht := ih t (by rw [h]; exact List.mem_cons_self _ _)
          simp only [List.mem_cons, not_or]
          exact ⟨fun hb2 => hb hb2.symm, ht⟩
        · exact ih s (by rw [h]; exact List.mem_cons_of_mem _ h1)

theorem indexByte_none (p : GoBytes) (c : Nat) (h : indexByte p c = none) :
    ¬ c ∈ p := by
  induction p with
  | nil => simp
  | cons b bs ih =>
    simp only [indexByte] at h
    split_ifs at h with hb
    simp only [Option.map_eq_none'] at h
    intro hc
    rcases List.mem_cons.mp hc with h1 | h1
    · exact hb h1.symm
    · exact (ih h) h1

theorem indexByte_some (p : GoBytes) (c : Nat) (idx : Nat)
    (h : indexByte p c = some idx) :
    idx < p.length ∧ ¬ c ∈ p.take idx ∧ p = p.take idx ++ c :: p.drop (idx + 1) := by
  induction p generalizing idx with
  | nil => simp [indexByte] at h
  | cons b bs ih =>
    simp only [indexByte] at h
    split_ifs at h with hb
    · cases h
      subst hb
      simp
    · simp only [Option.map_eq_some'] at h
      obtain ⟨j, hj, hidx⟩ := h
      obtain ⟨h1, h2, h3⟩ := ih j hj
      subst hidx
      refine ⟨by simpa using h1, ?_, ?_⟩
      · rw [List.take_succ_cons]
        intro hc
        rcases List.mem_cons.mp hc with hc | hc
        · exact hb hc.symm
        · exact h2 hc
      · rw [List.take_succ_cons, List.drop_succ_cons, List.cons_append]
        exact congrArg (b :: ·) h3

theorem getLastD_cons_of_ne_nil (a : GoBytes) (l : List GoBytes) (h : l ≠ []) :
    (a :: l).getLastD [] = l.getLastD [] := by
  cases l with
  | nil => cases h rfl
  | cons b bs => rfl

/-- The write loop realizes `splitNL`: starting from a newline-free
buffer, it emits every complete segment of `buf ++ p` and retains the
last one. -/
theorem chanWriterLoop_split :
    ∀ (fuel : Nat) (p : GoBytes), p.length < fuel →
    ∀ (buf : GoBytes) (lines : List GoBytes), ¬ nlByte ∈ buf →
      chanWriterLoop fuel buf lines p =
        ((splitNL (buf ++ p)).getLastD [],
          lines ++ (splitNL (buf ++ p)).dropLast) := by
  intro fuel
  induction fuel with
  | zero => intro p hp; omega
  | succ f ih =>
    intro p hp buf lines hbuf
    cases hidx : indexByte p nlByte with
    | none =>
      have hnp := indexByte_none p nlByte hidx
      have hno : ¬ nlByte ∈ buf ++ p := by
        simp only [List.mem_append, not_or]; exact ⟨hbuf, hnp⟩
      rw [show chanWriterLoop (f + 1) buf lines p = (buf ++ p, lines) from by
        simp only [chanWriterLoop, hidx]]
      rw [splitNL_no_newline _ hno]
      simp
    | some idx =>
      obtain ⟨hlt, hpre, hdecomp⟩ := indexByte_some p nlByte idx hidx
      have hsplit : splitNL (buf ++ p) =
          (buf ++ p.take idx) :: splitNL (p.drop (idx + 1)) := by
        conv_lhs => rw [hdecomp]
        rw [← List.append_assoc]
        exact splitNL_append_newline _ _
          (by simp only [List.mem_append, not_or]; exact ⟨hbuf, hpre⟩)
      have hrec := ih (p.drop (idx + 1)) (by simp [List.length_drop]; omega)
        [] (lines ++ [buf ++ p.take idx]) (by simp)
      rw [show chanWriterLoop (f + 1) buf lines p =
          chanWriterLoop f [] (lines ++ [buf ++ p.take idx]) (p.drop (idx + 1)) from by
        simp only [chanWriterLoop, hidx]]
      rw [hrec, hsplit]
      have hne := splitNL_ne_nil (p.drop (idx + 1))
      simp only [List.nil_append, Prod.mk.injEq]
      refine ⟨?_, ?_⟩
      · rw [getLastD_cons_of_ne_nil _ _ hne]
      · rw [List.dropLast_cons_of_ne_nil hne, List.append_assoc]
        rfl

/-- Single-write invariant: absent a force flush, the join of the sent
lines with the pending buffer grows by exactly the written bytes, and
the buffer stays newline-free. -/
theorem ChanWriter.write_invariant (w : ChanWriter) (p : GoBytes)
    (hbuf : ¬ nlByte ∈ w.buf)
    (hnf : ¬ 24 * 1024 ≤ (chanWriterLoop (p.length + 1) w.buf w.lines p).1.length) :
    joinNL ((w.write p).2.lines ++ [(w.write p).2.buf]) =
      joinNL (w.lines ++ [w.buf]) ++ p ∧
    ¬ nlByte ∈ (w.write p).2.buf := by
  have hloop := chanWriterLoop_split (p.length + 1) p (by omega) w.buf w.lines hbuf
  have hjoin : ∀ (xs : List GoBytes) (ys : List GoBytes), ys ≠ [] →
      joinNL (xs ++ ys) = joinNL (xs ++ [joinNL ys]) := by
    intro xs
    induction xs with
    | nil =>
      intro ys hys
      cases ys with
      | nil => simp at hys
      | cons a ys => simp [joinNL]
    | cons x xs ih =>
      intro ys hys
      have h1 : xs ++ ys ≠ [] := by
        intro hc
        rcases List.append_eq_nil.mp hc with ⟨-, h2⟩
        exact hys h2
      have h2 : xs ++ [joinNL ys] ≠ [] := by simp
      cases hxs : xs ++ ys with
      | nil => exact absurd hxs h1
      | cons a l =>
        cases hxs2 : xs ++ [joinNL ys] with
        | nil => exact absurd hxs2 h2
        | cons a2 l2 =>
          simp only [List.cons_append, hxs, hxs2, joinNL]
          rw [← hxs, ← hxs2, ih ys hys]
  have happ : ∀ (xs : List GoBytes) (b q : GoBytes),
      joinNL (xs ++ [b ++ q]) = joinNL (xs ++ [b]) ++ q := by
    intro xs
    induction xs with
    | nil => simp [joinNL]
    | cons x xs ih =>
      intro b q
      cases hxs : xs ++ [b ++ q] with
      | nil => simp at hxs
      | cons a l =>
        cases hxs2 : xs ++ [b] with
        | nil => simp at hxs2
        | cons a2 l2 =>
          simp only [List.cons_append, hxs, hxs2, joinNL]
          rw [← hxs, ← hxs2, ih b q, List.append_assoc]
          simp only [List.cons_append]
  have hdg : ∀ (l : List GoBytes), l ≠ [] → l.dropLast ++ [l.getLastD []] = l := by
    intro l
    induction l with
    | nil => intro h; cases h rfl
    | cons a l ih =>
      intro _
      cases l with
      | nil => rfl
      | cons b bs =>
        rw [List.dropLast_cons_of_ne_nil (by simp),
          getLastD_cons_of_ne_nil _ _ (by simp), List.cons_append,
          ih (by simp)]
  have hgmem : ∀ (l : List GoBytes), l ≠ [] → l.getLastD [] ∈ l := by
    intro l hl
    have hmem : l.getLastD [] ∈ l.dropLast ++ [l.getLastD []] :=
      List.mem_append_right _ (by simp)
    rwa [hdg l hl] at hmem
  have hw : (w.write p).2 =
      ⟨(splitNL (w.buf ++ p)).getLastD [],
        w.lines ++ (splitNL (w.buf ++ p)).dropLast⟩ := by
    simp only [ChanWriter.write, hloop]
    rw [if_neg (by rw [hloop] at hnf; exact hnf)]
  constructor
  · rw [hw]
    show joinNL (w.lines ++ (splitNL (w.buf ++ p)).dropLast ++ [_]) = _
    rw [List.append_assoc, hdg _ (splitNL_ne_nil (w.buf ++ p))]
    rw [hjoin w.lines (splitNL (w.buf ++ p)) (splitNL_ne_nil _),
      joinNL_splitNL, happ]
  · rw [hw]
    exact splitNL_segments_no_newline (w.buf ++ p) _
      (hgmem _ (splitNL_ne_nil _))

/-- Run invariant over a whole write sequence. -/
theorem ChanWriter.run_invariant :
    ∀ (ws : List GoBytes) (w : ChanWriter),
      ¬ nlByte ∈ w.buf →
      ChanWriter.noForceFlush w ws = true →
      joinNL ((ws.foldl (fun w p => (w.write p).2) w).lines ++
          [(ws.foldl (fun w p => (w.write p).2) w).buf]) =
        joinNL (w.lines ++ [w.buf]) ++ ws.flatten ∧
      ¬ nlByte ∈ (ws.foldl (fun w p => (w.write p).2) w).buf := by
  intro ws
  induction ws with
  | nil => intro w hbuf _; exact ⟨by simp, hbuf⟩
  | cons p ps ih =>
    intro w hbuf hnf
    simp only [ChanWriter.noForceFlush] at hnf
    split_ifs at hnf with hflush
    obtain ⟨h1, h2⟩ := ChanWriter.write_invariant w p hbuf hflush
    have hstate : (w.write p).2 =
        ⟨(chanWriterLoop (p.length + 1) w.buf w.lines p).1,
          (chanWriterLoop (p.length + 1) w.buf w.lines p).2⟩ := by
      simp only [ChanWriter.write]
      rw [if_neg hflush]
    obtain ⟨h3, h4⟩ := ih ((w.write p).2) h2 (by rw [hstate]; exact hnf)
    refine ⟨?_, by simpa using h4⟩
    simp only [List.foldl_cons, List.flatten_cons]
    rw [h3, h1, List.append_assoc]

/-- **C6 (amended).**  For every sequence of writes during which the
24 KiB force flush never triggers: joining the emitted lines and the
pending partial line with newlines reconstructs exactly the bytes
written, so before `Close` the trailing partial line (the bytes after
the last newline) is withheld from the output; `Close` emits it iff it
is nonempty, after which the joined output equals the bytes written
exactly when they ended in a partial line. -/
theorem chanWriter_lines_spec (ws : List GoBytes)
    (hnf : ChanWriter.noForceFlush ⟨[], []⟩ ws = true) :
    joinNL ((ChanWriter.run ws).lines ++ [(ChanWriter.run ws).buf]) = ws.flatten ∧
    ((ChanWriter.run ws).buf ≠ [] →
      joinNL (ChanWriter.close (ChanWriter.run ws)) = ws.flatten) ∧
    ((ChanWriter.run ws).buf = [] →
      ChanWriter.close (ChanWriter.run ws) = (ChanWriter.run ws).lines) := by
  obtain ⟨h1, _⟩ := ChanWriter.run_invariant ws ⟨[], []⟩ (by simp) hnf
  have h1' : joinNL ((ChanWriter.run ws).lines ++ [(ChanWriter.run ws).buf]) =
      ws.flatten := by
    simpa [ChanWriter.run, joinNL] using h1
  refine ⟨h1', ?_, ?_⟩
  · intro hne
    unfold ChanWriter.close
    rw [if_pos (by cases h : (ChanWriter.run ws).buf with
      | nil => exact absurd h hne
      | cons a l => simp [h])]
    exact h1'
  · intro hbe
    unfold ChanWriter.close
    rw [if_neg (by simp [hbe])]

/-- **C6 (witness).**  Concrete instance of `chanWriter_lines_spec`:
writing `"ab\n"` then `"c"` emits the line `"ab"`, keeps `"c"` pending,
and closing emits `"c"`, reconstructing the input. -/
theorem chanWriter_lines_spec_witness :
    joinNL ((ChanWriter.run [[97, 98, 10], [99]]).lines ++
        [(ChanWriter.run [[97, 98, 10], [99]]).buf]) =
      [97, 98, 10, 99] ∧
    joinNL (ChanWriter.close (ChanWriter.run [[97, 98, 10], [99]])) =
      [97, 98, 10, 99] := by
  have h := chanWriter_lines_spec [[97, 98, 10], [99]] (by rfl)
  exact ⟨h.1, h.2.1 (by decide)⟩

/-- Running a single write from the initial state. -/
theorem ChanWriter.run_singleton (q : GoBytes) :
    ChanWriter.run [q] = (ChanWriter.write ⟨[], []⟩ q).2 := rfl

/-- A single write of a newline-free chunk of at least 24 KiB force
flushes: the whole chunk is emitted as a line and the buffer resets. -/
theorem ChanWriter.write_flush (lines : List GoBytes) (p : GoBytes)
    (hp : ¬ nlByte ∈ p) (hlen : 24 * 1024 ≤ p.length) :
    (ChanWriter.write ⟨[], lines⟩ p).2 = ⟨[], lines ++ [p]⟩ := by
  have hloop := chanWriterLoop_split (p.length + 1) p (by omega) [] lines (by simp)
  rw [List.nil_append, splitNL_no_newline _ hp] at hloop
  have hred : ((([p].getLastD ([] : GoBytes)) : GoBytes), lines ++ [p].dropLast) =
      ((p : GoBytes), lines) := by simp
  rw [hred] at hloop
  simp only [ChanWriter.write, hloop]
  rw [if_pos hlen]

/-- **C6 (counterexample).**  The claim says the trailing partial line
appears in the output iff the writer was closed.  A single 24 KiB write
with no newline refutes it: the force flush emits the whole (newline
free) input as a line although the writer is never closed, so the
partial line is already in the output. -/
theorem chanWriter_forceflush_cex :
    (ChanWriter.run [List.replicate 24576 97]).lines =
      [List.replicate 24576 97] ∧
    ¬ nlByte ∈ List.replicate 24576 97 ∧
    (ChanWriter.run [List.replicate 24576 97]).buf = [] := by
  have hp : ¬ nlByte ∈ List.replicate 24576 97 := by
    rw [List.mem_replicate]
    rintro ⟨-, h⟩
    exact absurd h (by decide)
  have hlen : 24 * 1024 ≤ (List.replicate 24576 97).length := by
    rw [List.length_replicate]
  have hrun : ChanWriter.run [List.replicate 24576 97] =
      ⟨[], [] ++ [List.replicate 24576 97]⟩ := by
    rw [ChanWriter.run_singleton,
      ChanWriter.write_flush [] (List.replicate 24576 97) hp hlen]
  rw [hrun]
  exact ⟨rfl, hp, rfl⟩
/-! ## Go string helpers (packages `strings`, `unicode`, `strconv`) -/

/-- `unicode.IsSpace`: the White_Space code points. -/
def isSpaceGo (c : Char) : Bool :=
  decide (c = ' ' ∨ c = '\t' ∨ c = '\n' ∨ c = Char.ofNat 11 ∨ c = Char.ofNat 12 ∨
    c = '\r' ∨ c = Char.ofNat 0x85 ∨ c = Char.ofNat 0xa0 ∨ c = Char.ofNat 0x1680 ∨
    (0x2000 ≤ c.toNat ∧ c.toNat ≤ 0x200a) ∨ c = Char.ofNat 0x2028 ∨
    c = Char.ofNat 0x2029 ∨ c = Char.ofNat 0x202f ∨ c = Char.ofNat 0x205f ∨
    c = Char.ofNat 0x3000)

/-- `strings.TrimSpace`. -/
def trimSpace (s : GoStr) : GoStr :=
  ((s.dropWhile isSpaceGo).reverse.dropWhile isSpaceGo).reverse

/-- `strings.Split` with a one-character separator. -/
def goSplit (sep : Char) : GoStr → List GoStr
  | [] => [[]]
  | c :: cs =>
    if c = sep then [] :: goSplit sep cs
    else
      match goSplit sep cs with
      | s :: rest => (c :: s) :: rest
      | [] => [[c]]

/-- `strings.SplitN s "/" 2`: cut at the first separator only. -/
def breakAt (sep : Char) : GoStr → Option (GoStr × GoStr)
  | [] => none
  | c :: cs =>
    if c = sep then some ([], cs)
    else (breakAt sep cs).map fun r => (c :: r.1, r.2)

/-- `strings.SplitN` with count 2. -/
def goSplitN2 (sep : Char) (s : GoStr) : List GoStr :=
  match breakAt sep s with
  | none => [s]
  | some r => [r.1, r.2]

/-- `strings.ContainsAny s "0123456789"`. -/
def containsAnyDigit (s : GoStr) : Bool :=
  s.any fun c => decide ('0' ≤ c ∧ c ≤ '9')

/-- `strconv.Atoi` (= `ParseInt s 10 0` on a 64-bit platform followed by
the int conversion).  Go checks overflow incrementally against cutoffs
while accumulating; the consolidated final range check here is
extensionally the same. -/
def atoi (s : GoStr) : Except Unit Int :=
  let sgnRest : Int × GoStr :=
    match s with
    | c :: rest =>
      if c = '+' then (1, rest)
      else if c = '-' then (-1, rest)
      else (1, s)
    | [] => (1, s)
  let sgn := sgnRest.1
  let ds := sgnRest.2
  if ds.isEmpty then .error ()
  else if ¬ (ds.all fun c => decide ('0' ≤ c ∧ c ≤ '9')) = true then .error ()
  else
    let v : Nat := ds.foldl (fun a c => a * 10 + (c.toNat - 48)) 0
    if sgn = 1 ∧ (2 ^ 63 - 1 : Nat) < v then .error ()
    else if sgn = -1 ∧ (2 ^ 63 : Nat) < v then .error ()
    else .ok (sgn * v)

/-! ## `time.ParseDuration` (Go standard library, package `time`) -/

/-- `time.unitMap`: nanoseconds per unit name. -/
def unitMap (u : GoStr) : Option Nat :=
  if u = ['n', 's'] then some 1
  else if u = ['u', 's'] then some 1000
  else if u = ['µ', 's'] then some 1000
  else if u = ['μ', 's'] then some 1000
  else if u = ['m', 's'] then some 1000000
  else if u = ['s'] then some 1000000000
  else if u = ['m'] then some 60000000000
  else if u = ['h'] then some 3600000000000
  else none

/-- `time.leadingInt`: consume leading digits with `uint64` overflow
checks (`x > 1<<63/10` before the multiply, `x > 1<<63` after). -/
def leadingIntGo (x : Nat) : GoStr → Except Unit (Nat × GoStr)
  | [] => .ok (x, [])
  | c :: cs =>
    if c < '0' ∨ '9' < c then .ok (x, c :: cs)
    else if 2 ^ 63 / 10 < x then .error ()
    else
      let x1 := x * 10 + (c.toNat - 48)
      if 2 ^ 63 < x1 then .error ()
      else leadingIntGo x1 cs

/-- `time.leadingInt` entry point. -/
def leadingInt (s : GoStr) : Except Unit (Nat × GoStr) :=
  leadingIntGo 0 s

/-- `time.leadingFraction`: consume fraction digits, saturating once the
accumulator would overflow; the float64 `scale` is an exact power of ten
here, modelled as `Nat`. -/
def leadingFractionGo (x scale : Nat) (overflow : Bool) : GoStr → Nat × Nat × GoStr
  | [] => (x, scale, [])
  | c :: cs =>
    if c < '0' ∨ '9' < c then (x, scale, c :: cs)
    else if overflow then leadingFractionGo x scale true cs
    else if (2 ^ 63 - 1) / 10 < x then leadingFractionGo x scale true cs
    else
      let y := x * 10 + (c.toNat - 48)
      if 2 ^ 63 < y then leadingFractionGo x scale true cs
      else leadingFractionGo y (scale * 10) false cs

/-- `time.leadingFraction` entry point. -/
def leadingFraction (s : GoStr) : Nat × Nat × GoStr :=
  leadingFractionGo 0 1 false s

/-- The unit-name scan of `ParseDuration`: split before the first `.` or
digit. -/
def unitSplit : GoStr → GoStr × GoStr
  | [] => ([], [])
  | c :: cs =>
    if c = '.' ∨ ('0' ≤ c ∧ c ≤ '9') then ([], c :: cs)
    else
      let r := unitSplit cs
      (c :: r.1, r.2)

/-- The `for s != ""` loop of `time.ParseDuration`.  Every iteration
consumes at least the (nonempty) unit name, so `fuel = s.length + 1`
suffices.  The fractional contribution
`uint64(float64(f) * (float64(unit)/scale))` is exact floor division
for the powers of ten that reach it, modelled as `f * unit / scale`. -/
def parseDurationLoop : Nat → Nat → GoStr → Except Unit Nat
  | 0, _, _ => .error ()
  | f + 1, d, s =>
    if s.isEmpty then .ok d
    else
      let c := s.headD ' '
      if ¬ (c = '.' ∨ ('0' ≤ c ∧ c ≤ '9')) then .error ()
      else
        match leadingInt s with
        | .error _ => .error ()
        | .ok vs1 =>
          let v0 := vs1.1
          let s1 := vs1.2
          let pre : Bool := s1.length != s.length
          let fps : Nat × Nat × GoStr × Bool :=
            match s1 with
            | '.' :: s2 =>
              let lf := leadingFraction s2
              (lf.1, lf.2.1, lf.2.2, (lf.2.2.length != s2.length : Bool))
            | _ => (0, 1, s1, false)
          let fv := fps.1
          let scale := fps.2.1
          let s3 := fps.2.2.1
          let post := fps.2.2.2
          if pre = false ∧ post = false then .error ()
          else
            let us := unitSplit s3
            if us.1.isEmpty then .error ()
            else
              match unitMap us.1 with
              | none => .error ()
              | some unit =>
                if 2 ^ 63 / unit < v0 then .error ()
                else
                  let v1 := v0 * unit
                  let v2 := if 0 < fv then v1 + fv * unit / scale else v1
                  if 0 < fv ∧ 2 ^ 63 < v2 then .error ()
                  else
                    let d1 := d + v2
                    if 2 ^ 63 < d1 then .error ()
                    else parseDurationLoop f d1 us.2

/-- `time.ParseDuration`. -/
def parseDuration (s : GoStr) : Except Unit Int :=
  let negRest : Bool × GoStr :=
    match s with
    | c :: rest =>
      if c = '-' ∨ c = '+' then (c = '-', rest) else (false, s)
    | [] => (false, s)
  let neg := negRest.1
  let s1 := negRest.2
  if s1 = ['0'] then .ok 0
  else if s1.isEmpty then .error ()
  else
    match parseDurationLoop (s1.length + 1) 0 s1 with
    | .error _ => .error ()
    | .ok d =>
      if neg then .ok (-(d : Int))
      else if 2 ^ 63 - 1 < d then .error ()
      else .ok (d : Int)

/-! ## `Limiter.UnmarshalYAML` (src/utils.go lines 275-299)

The YAML layer (an external library) delivers the scalar string; the
embedding starts from it.  On error the receiver's fields are returned
unchanged together with the error. -/

/-- `Limiter.UnmarshalYAML` (src/utils.go lines 275-299). -/
def Limiter.unmarshalYAML (c : Limiter) (s : GoStr) : Limiter × Option GoStr :=
  let parts := goSplit '/' s
  if parts.length ≠ 2 then (c, some s)
  else
    match atoi (trimSpace (parts.getD 0 [])) with
    | .error _ => (c, some s)
    | .ok maxv =>
      let d := trimSpace (parts.getD 1 [])
      let d1 := if ¬ containsAnyDigit d then '1' :: d else d
      match parseDuration d1 with
      | .error _ => (c, some s)
      | .ok timeout =>
        if timeout < millisecondD then (c, some s)
        else ({ c with max := maxv, timeout := timeout }, none)

/-! ## `RestartPolicy` (src/utils.go lines 688-770) -/

/-- `RestartPolicy` (src/utils.go lines 688-696).  The `started` field is
an `*atomic.Bool` pointer in Go; `none` models the nil pointer of a
zero-value policy (never produced by parsing). -/
structure RestartPolicy where
  raw : GoStr
  started : Option Bool
  always : Bool
  exitOnFail : Bool
  times : Int
  notFirst : Bool
  backoff : Int
  deriving Repr, DecidableEq

/-- `RestartPolicy.UnmarshalYAML` (src/utils.go lines 710-741). -/
def RestartPolicy.unmarshalYAML (s : GoStr) : Except Unit RestartPolicy :=
  let rp0 : RestartPolicy :=
    { raw := [], started := none, always := false, exitOnFail := false,
      times := 0, notFirst := false, backoff := 0 }
  let parts := goSplitN2 '/' s
  let policy := parts.getD 0 []
  let withBackoff : Except Unit RestartPolicy :=
    if 1 < parts.length then
      match parseDuration (parts.getD 1 []) with
      | .error _ => .error ()
      | .ok d => .ok { rp0 with backoff := d }
    else .ok rp0
  match withBackoff with
  | .error _ => .error ()
  | .ok rp1 =>
    let rp2 : Except Unit RestartPolicy :=
      if policy = ['a', 'l', 'w', 'a', 'y', 's'] then
        .ok { rp1 with always := true }
      else if policy = ['o', 'n', '-', 's', 'u', 'c', 'c', 'e', 's', 's'] then
        .ok { rp1 with exitOnFail := true }
      else if policy = ['o', 'n', 'c', 'e'] then
        .ok { rp1 with times := 1 }
      else .error ()
    match rp2 with
    | .error _ => .error ()
    | .ok rp3 => .ok { rp3 with raw := s, started := some true }

/-- `RestartPolicy.Stop` (src/utils.go lines 698-700): `started.Store
false`.  A nil `started` pointer would panic in Go; parsed policies
always carry one. -/
def RestartPolicy.stop (rp : RestartPolicy) : RestartPolicy :=
  { rp with started := some false }

/-- `RestartPolicy.Next` (src/utils.go lines 753-770).  `wait` only
sleeps (and flips `notFirst`); the decision and all state changes are
kept. -/
def RestartPolicy.next (rp : RestartPolicy) (err : Option Unit) :
    Bool × RestartPolicy :=
  match rp.started with
  | none => (false, rp)
  | some b =>
    if b = false then (false, rp)
    else if rp.always then
      (true, { rp with notFirst := decide (0 < rp.backoff) || rp.notFirst })
    else if rp.exitOnFail then (err.isNone, rp)
    else if 0 < rp.times then
      (true, { rp with
        times := rp.times - 1
        notFirst := decide (0 < rp.backoff) || rp.notFirst })
    else (false, rp)

/-- Run a sequence of `Next` calls, collecting the results. -/
def RestartPolicy.nextSeq (rp : RestartPolicy) : List (Option Unit) → List Bool
  | [] => []
  | e :: es =>
    let r := rp.next e
    r.1 :: r.2.nextSeq es


/-! ## C9: stop makes every later `next` return false -/

/-- **C9.**  For every restart policy value obtained by parsing a policy
specification (`always`, `on-success`, or `once`, with or without a
backoff suffix), once `Stop()` has been called every subsequent
`Next(prev_err)` call returns false, whatever the error values are. -/
theorem restartPolicy_stop_spec (s : GoStr) (rp : RestartPolicy)
    (hp : RestartPolicy.unmarshalYAML s = .ok rp)
    (errs : List (Option Unit)) :
    RestartPolicy.nextSeq rp.stop errs = List.replicate errs.length false := by
  clear hp
  induction errs with
  | nil => rfl
  | cons e es ih =>
    show (RestartPolicy.next rp.stop e).1 ::
        (RestartPolicy.next rp.stop e).2.nextSeq es = _
    have h1 : RestartPolicy.next rp.stop e = (false, rp.stop) := by
      simp [RestartPolicy.next, RestartPolicy.stop]
    rw [h1, List.length_cons, List.replicate_succ]
    exact congrArg (false :: ·) ih

/-- **C9 (witness).**  Parsing `always`, stopping, then two `next` calls
(one failed run, one successful): both return false. -/
theorem restartPolicy_stop_spec_witness :
    RestartPolicy.unmarshalYAML ['a', 'l', 'w', 'a', 'y', 's'] =
      .ok ⟨['a', 'l', 'w', 'a', 'y', 's'], some true, true, false, 0, false, 0⟩ ∧
    RestartPolicy.nextSeq
      (RestartPolicy.stop
        ⟨['a', 'l', 'w', 'a', 'y', 's'], some true, true, false, 0, false, 0⟩)
      [some (), none] = [false, false] := by
  constructor
  · rfl
  · have h := restartPolicy_stop_spec ['a', 'l', 'w', 'a', 'y', 's']
      ⟨['a', 'l', 'w', 'a', 'y', 's'], some true, true, false, 0, false, 0⟩
      rfl [some (), none]
    rw [h]
    rfl

/-! ## C8: the rate specification grammar -/

/-- Helper for C8: join with `/` separators (left inverse of `goSplit`). -/
def joinSlash : List GoStr → GoStr
  | [] => []
  | [l] => l
  | l :: ls => l ++ '/' :: joinSlash ls

theorem goSplit_ne_nil (sep : Char) (x : GoStr) : goSplit sep x ≠ [] := by
  cases x with
  | nil => simp [goSplit]
  | cons b bs =>
    simp only [goSplit]
    split_ifs
    · simp
    · cases h : goSplit sep bs <;> simp

theorem joinSlash_goSplit (x : GoStr) : joinSlash (goSplit '/' x) = x := by
  induction x with
  | nil => rfl
  | cons b bs ih =>
    simp only [goSplit]
    split_ifs with hb
    · cases h : goSplit '/' bs with
      | nil => exact absurd h (goSplit_ne_nil '/' bs)
      | cons t rest =>
        rw [h] at ih
        subst hb
        simp only [joinSlash]
        rw [ih]
        rfl
    · cases h : goSplit '/' bs with
      | nil => exact absurd h (goSplit_ne_nil '/' bs)
      | cons t rest =>
        rw [h] at ih
        cases rest with
        | nil => simp only [joinSlash] at ih ⊢; rw [ih]
        | cons r rs =>
          simp only [joinSlash] at ih ⊢
          rw [List.cons_append, ih]

theorem goSplit_no_sep (sep : Char) (x : GoStr) (h : ¬ sep ∈ x) :
    goSplit sep x = [x] := by
  induction x with
  | nil => rfl
  | cons b bs ih =>
    obtain ⟨h1, h2⟩ : ¬ sep = b ∧ ¬ sep ∈ bs := by simpa using h
    simp only [goSplit]
    rw [if_neg (show ¬ b = sep from fun hb => h1 hb.symm)]
    rw [ih h2]

theorem goSplit_append_sep (sep : Char) (x y : GoStr) (h : ¬ sep ∈ x) :
    goSplit sep (x ++ sep :: y) = x :: goSplit sep y := by
  induction x with
  | nil => simp [goSplit]
  | cons b bs ih =>
    obtain ⟨h1, h2⟩ : ¬ sep = b ∧ ¬ sep ∈ bs := by simpa using h
    simp only [List.cons_append, goSplit]
    rw [if_neg (show ¬ b = sep from fun hb => h1 hb.symm)]
    have ha : bs.append (sep :: y) = bs ++ sep :: y := rfl
    rw [ha, ih h2]

theorem goSplit_segments (sep : Char) (x : GoStr) :
    ∀ t ∈ goSplit sep x, ¬ sep ∈ t := by
  induction x with
  | nil =>
    intro t ht
    simp only [goSplit, List.mem_singleton] at ht
    simp [ht]
  | cons b bs ih =>
    intro t ht
    by_cases hb : b = sep
    · simp only [goSplit] at ht
      rw [if_pos hb] at ht
      rcases List.mem_cons.mp ht with h1 | h1
      · simp [h1]
      · exact ih t h1
    · simp only [goSplit] at ht
      rw [if_neg hb] at ht
      cases h : goSplit sep bs with
      | nil => exact absurd h (goSplit_ne_nil sep bs)
      | cons u rest =>
        rw [h] at ht
        rcases List.mem_cons.mp ht with h1 | h1
        · subst h1
          have hu := ih u (by rw [h]; exact List.mem_cons_self _ _)
          simp only [List.mem_cons, not_or]
          exact ⟨fun hb2 => hb hb2.symm, hu⟩
        · exact ih t (by rw [h]; exact List.mem_cons_of_mem _ h1)

/-- `goSplit` produces exactly `[a, b]` iff the input is `a ++ "/" ++ b`
with neither part containing the separator. -/
theorem goSplit_pair_iff (s a b : GoStr) :
    goSplit '/' s = [a, b] ↔
      (s = a ++ '/' :: b ∧ ¬ '/' ∈ a ∧ ¬ '/' ∈ b) := by
  constructor
  · intro h
    refine ⟨?_, ?_, ?_⟩
    · have hj := joinSlash_goSplit s
      rw [h] at hj
      exact hj.symm
    · exact goSplit_segments '/' s a (by rw [h]; simp)
    · exact goSplit_segments '/' s b (by rw [h]; simp)
  · rintro ⟨hs, ha, hb⟩
    subst hs
    rw [goSplit_append_sep '/' a b ha, goSplit_no_sep '/' b hb]

/-- The specification's notion of a well-formed rate string (§ rate
spec): `<count>/<duration>` — a single slash, the count side an
integer, and the duration side (a bare unit standing for `1<unit>`)
parsing to a duration of at least one millisecond.  Surrounding white
space is tolerated on both sides, as `<count>` and `<duration>` denote
the trimmed tokens. -/
def rateSpecWellFormed (s : GoStr) : Prop :=
  ∃ cnt dur : GoStr,
    s = cnt ++ '/' :: dur ∧ ¬ '/' ∈ cnt ∧ ¬ '/' ∈ dur ∧
    (∃ n, atoi (trimSpace cnt) = .ok n) ∧
    (∃ t, parseDuration
        (if ¬ containsAnyDigit (trimSpace dur) then '1' :: trimSpace dur
         else trimSpace dur) = .ok t ∧
      millisecondD ≤ t)

/-- **C8.**  Parsing a rate specification succeeds exactly when the
string has the form `<count>/<duration>` with an integer count and a
duration of at least one millisecond, where a duration containing no
digit is read as `1<unit>`; on failure the limiter's `max` and `window`
fields are left unchanged. -/
theorem limiter_unmarshal_rate_spec (c : Limiter) (s : GoStr) :
    ((Limiter.unmarshalYAML c s).2 = none ↔ rateSpecWellFormed s) ∧
    ((Limiter.unmarshalYAML c s).2 ≠ none →
      (Limiter.unmarshalYAML c s).1 = c) := by
  have hshape : (Limiter.unmarshalYAML c s).1 = c ∨
      (Limiter.unmarshalYAML c s).2 = none := by
    unfold Limiter.unmarshalYAML
    dsimp only
    split
    · exact Or.inl rfl
    · split
      · exact Or.inl rfl
      · split
        · exact Or.inl rfl
        · split
          · exact Or.inl rfl
          · exact Or.inr rfl
  refine ⟨?_, fun hne => hshape.resolve_right hne⟩
  by_cases hl : (goSplit '/' s).length = 2
  · obtain ⟨a, b, hab⟩ : ∃ a b, goSplit '/' s = [a, b] := by
      cases hgs : goSplit '/' s with
      | nil => rw [hgs] at hl; simp at hl
      | cons x xs =>
        cases xs with
        | nil => rw [hgs] at hl; simp at hl
        | cons y ys =>
          cases ys with
          | nil => exact ⟨x, y, rfl⟩
          | cons z zs =>
            rw [hgs] at hl
            simp only [List.length_cons] at hl
            omega
    obtain ⟨hs, ha, hb⟩ := (goSplit_pair_iff s a b).mp hab
    have hget0 : (goSplit '/' s).getD 0 [] = a := by rw [hab]; rfl
    have hget1 : (goSplit '/' s).getD 1 [] = b := by rw [hab]; rfl
    unfold Limiter.unmarshalYAML
    dsimp only
    rw [if_neg (by rw [hab]; simp), hget0, hget1]
    constructor
    · intro hok
      refine ⟨a, b, hs, ha, hb, ?_, ?_⟩
      · cases hat : atoi (trimSpace a) with
        | error e => rw [hat] at hok; simp at hok
        | ok n => exact ⟨n, rfl⟩
      · cases hat : atoi (trimSpace a) with
        | error e => rw [hat] at hok; simp at hok
        | ok n =>
          simp only [hat] at hok
          cases hdt : parseDuration
              (if ¬ containsAnyDigit (trimSpace b) = true then '1' :: trimSpace b
               else trimSpace b) with
          | error e => simp only [hdt] at hok; simp at hok
          | ok t =>
            simp only [hdt] at hok
            refine ⟨t, rfl, ?_⟩
            by_contra hlt
            rw [if_pos (by omega)] at hok
            simp at hok
    · rintro ⟨cnt, dur, hs2, ha2, hb2, ⟨n, hn⟩, ⟨t, ht, htm⟩⟩
      have hpair2 := (goSplit_pair_iff s cnt dur).mpr ⟨hs2, ha2, hb2⟩
      rw [hab] at hpair2
      obtain ⟨hac, hbd⟩ : a = cnt ∧ b = dur := by simpa using hpair2
      subst hac
      subst hbd
      simp only [hn, ht, if_neg (show ¬ t < millisecondD from by omega)]
  · unfold Limiter.unmarshalYAML
    dsimp only
    rw [if_pos hl]
    constructor
    · intro hok
      simp at hok
    · rintro ⟨cnt, dur, hs2, ha2, hb2, -, -⟩
      have hpair2 := (goSplit_pair_iff s cnt dur).mpr ⟨hs2, ha2, hb2⟩
      rw [hpair2] at hl
      simp at hl

/-- **C8 (witness).**  Concrete instances of
`limiter_unmarshal_rate_spec`: the spec `3/2s` parses (and is
well-formed), `3//s` fails and leaves the limiter untouched. -/
theorem limiter_unmarshal_rate_spec_witness :
    rateSpecWellFormed ['3', '/', '2', 's'] ∧
    (Limiter.unmarshalYAML ⟨7, 8, []⟩ ['3', '/', '/', 's']).1 = ⟨7, 8, []⟩ := by
  constructor
  · exact (limiter_unmarshal_rate_spec ⟨7, 8, []⟩ ['3', '/', '2', 's']).1.mp (by rfl)
  · exact (limiter_unmarshal_rate_spec ⟨7, 8, []⟩ ['3', '/', '/', 's']).2
      (by intro h; simp [Limiter.unmarshalYAML, goSplit] at h)


/-! ## `IPLocationCache` (src/iplocation.go lines 273-322) -/

/-- `FixedIP` (src/iplocation.go line 273): a `[16]byte` key.  The Go
conversion `FixedIP(ip)` from the slice panics when `len(ip) < 16` and
takes the first 16 bytes otherwise; the panic is modelled as
`Except.error`. -/
def toFixedIP (ip : IP) : Except Unit (List Nat) :=
  if ip.length < 16 then .error ()
  else .ok (ip.take 16)

/-- `IPLocationCache` (src/iplocation.go lines 275-279).  `capv` is the
capacity fixed by `Init` (`cap(value)`); the map is an association
list. -/
structure IPLocationCache where
  capv : Nat
  data : List (List Nat × Nat)
  value : List GoStr
  deriving Repr, DecidableEq

/-- `IPLocationCache.Init` (src/iplocation.go lines 281-284). -/
def IPLocationCache.init (size : Nat) : IPLocationCache :=
  ⟨size, [], []⟩

/-- `IPLocationCache.Get` (src/iplocation.go lines 286-295): converts
the address to a fixed key without normalization (panicking for short
slices), then reads the table; a miss is the empty string.  The index
read `s.value[i]` is in range by the Set invariant, modelled with a
default. -/
def IPLocationCache.get (c : IPLocationCache) (ip : IP) : Except Unit GoStr :=
  match toFixedIP ip with
  | .error e => .error e
  | .ok k =>
    match (c.data.find? fun e => e.1 == k).map (·.2) with
    | none => .ok []
    | some i => .ok (c.value.getD i [])

/-- `IPLocationCache.Set` (src/iplocation.go lines 297-322): overwrite an
existing key; otherwise either evict an arbitrary victim (Go takes the
first key the map range yields; the association list's head here) when
full, or append.  Eviction from an empty full table (only possible with
capacity 0) indexes `value[0]` out of range in Go and is a panic. -/
def IPLocationCache.set (c : IPLocationCache) (ip : IP) (v : GoStr) :
    Except Unit IPLocationCache :=
  match toFixedIP ip with
  | .error e => .error e
  | .ok k =>
    match (c.data.find? fun e => e.1 == k).map (·.2) with
    | some idx => .ok { c with value := c.value.set idx v }
    | none =>
      if c.value.length = c.capv then
        match c.data with
        | [] => .error ()
        | e :: rest =>
          .ok { c with
            data := rest ++ [(k, e.2)]
            value := c.value.set e.2 v }
      else
        .ok { c with
          data := c.data ++ [(k, c.data.length)]
          value := c.value ++ [v] }

/-! ## C10: the cache requires 16-byte keys -/

/-- **C10.**  `Get` and `Set` convert the supplied address directly into
a fixed 16-byte key without normalizing first: for every address value
in 4-byte or 16-byte form whose length is not 16 (that is, the 4-byte
form `To4` returns), both operations panic instead of reporting a miss
or storing the entry; 16-byte addresses never hit this panic in `Get`. -/
theorem ipLocationCache_fixedIP_spec (c : IPLocationCache) (ip : IP) (v : GoStr)
    (hlen : ip.length = 4 ∨ ip.length = 16) :
    (ip.length ≠ 16 →
      IPLocationCache.get c ip = .error () ∧
      IPLocationCache.set c ip v = .error ()) ∧
    (ip.length = 16 → ∃ r, IPLocationCache.get c ip = .ok r) := by
  constructor
  · intro hne
    have h4 : ip.length = 4 := by
      rcases hlen with h | h
      · exact h
      · exact absurd h hne
    have hfix : toFixedIP ip = .error () := by
      unfold toFixedIP
      rw [if_pos (by omega)]
    constructor
    · unfold IPLocationCache.get
      rw [hfix]
    · unfold IPLocationCache.set
      rw [hfix]
  · intro h16
    have hfix : toFixedIP ip = .ok (ip.take 16) := by
      unfold toFixedIP
      rw [if_neg (by omega)]
    simp only [IPLocationCache.get, hfix]
    cases hfind : (c.data.find? fun e => e.1 == ip.take 16).map (·.2) with
    | none => exact ⟨[], rfl⟩
    | some i => exact ⟨c.value.getD i [], rfl⟩

/-- **C10 (witness).**  The 4-byte form `1.2.3.4` panics in both `Get`
and `Set` of a fresh cache, while its 16-byte form is looked up fine. -/
theorem ipLocationCache_fixedIP_spec_witness :
    IPLocationCache.get (IPLocationCache.init 1024) [1, 2, 3, 4] = .error () ∧
    IPLocationCache.set (IPLocationCache.init 1024) [1, 2, 3, 4] ['x'] = .error () ∧
    (∃ r, IPLocationCache.get (IPLocationCache.init 1024)
      (v4InV6Prefix ++ [1, 2, 3, 4]) = .ok r) := by
  obtain ⟨h1, -⟩ := ipLocationCache_fixedIP_spec (IPLocationCache.init 1024)
    [1, 2, 3, 4] ['x'] (Or.inl rfl)
  obtain ⟨hg, hs⟩ := h1 (by decide)
  obtain ⟨-, h2⟩ := ipLocationCache_fixedIP_spec (IPLocationCache.init 1024)
    (v4InV6Prefix ++ [1, 2, 3, 4]) ['x'] (Or.inr (by rfl))
  exact ⟨hg, hs, h2 (by rfl)⟩

/-! ## Counters registry and stats HTTP handler (C7)

The dispatch logic is `Engine.StartStatServer` (src/unnamed/part_008
lines 86-113).  The registry implementation matching the repository's
three-argument `RegisterNewCounter` call sites (src/discipline.go,
src/watch.go) and the nested-JSON expectation of its test
(`TestCountersWorks`, src/unnamed/part_009) is not under `src/`
(src/utils.go carries an older single-name revision), so the registry
and its JSON rendering are modelled from the spec. -/

/-- Modelled from the spec: the process-wide counters registry, counters
"registered as `(group, id, metric)` tuples" with `int64` values; the
registry implementation for the three-argument registration is missing
from `src/`.  Registration overwrites an existing tuple. -/
abbrev CounterRegistry := List ((GoStr × GoStr × GoStr) × Int)

/-- Modelled from the spec: first-match lookup of a registration tuple. -/
def regLookup (reg : CounterRegistry) (k : GoStr × GoStr × GoStr) : Option Int :=
  (reg.find? fun e => e.1 == k).map (·.2)

/-- Modelled from the spec: `OutputCounters` renders the registry as the
nested JSON object `{ group: { id: { metric: int64 } } }` keyed by the
registration tuples (the counters implementation is missing from
`src/`; its test `TestCountersWorks` decodes exactly this shape). -/
def countersJSON (reg : CounterRegistry) :
    List (GoStr × List (GoStr × List (GoStr × Int))) :=
  (reg.map fun e => e.1.1).dedup.map fun g =>
    (g, ((reg.filter fun e => e.1.1 == g).map fun e => e.1.2.1).dedup.map fun i =>
      (i, ((reg.filter fun e => e.1.1 == g && e.1.2.1 == i).map
          fun e => e.1.2.2).dedup.map fun m =>
        (m, (regLookup reg (g, i, m)).getD 0)))

/-- A response of the stats endpoint. -/
inductive StatResponse where
  | notFound
  | body (js : List (GoStr × List (GoStr × List (GoStr × Int))))
  deriving Repr

/-- The `http.HandlerFunc` of `Engine.StartStatServer`
(src/unnamed/part_008 lines 89-99): non-GET methods and paths other
than `/` get 404, otherwise the counters are rendered. -/
def statHandler (reg : CounterRegistry) (method path : GoStr) : StatResponse :=
  if method ≠ ['G', 'E', 'T'] then .notFound
  else if path ≠ ['/'] then .notFound
  else .body (countersJSON reg)

/-- Lookup in the nested JSON object. -/
def jsonLookup (js : List (GoStr × List (GoStr × List (GoStr × Int))))
    (g i m : GoStr) : Option Int :=
  match js.find? fun e => e.1 == g with
  | none => none
  | some ge =>
    match ge.2.find? fun e => e.1 == i with
    | none => none
    | some ie =>
      match ie.2.find? fun e => e.1 == m with
      | none => none
      | some me => some me.2

theorem find?_pair_map {β : Type} (l : List GoStr) (F : GoStr → β) (g : GoStr) :
    (l.map fun x => (x, F x)).find? (fun e => e.1 == g) =
      (l.find? fun x => x == g).map fun x => (x, F x) := by
  induction l with
  | nil => rfl
  | cons x xs ih =>
    by_cases hx : (x == g) = true
    · simp [List.find?, hx]
    · have hx2 : (x == g) = false := by simpa using hx
      simp only [List.map_cons, List.find?, hx2]
      exact ih

theorem find?_beq_self (l : List GoStr) (g : GoStr) (h : g ∈ l) :
    (l.find? fun x => x == g) = some g := by
  induction l with
  | nil => simp at h
  | cons x xs ih =>
    by_cases hx : (x == g) = true
    · have : x = g := by simpa using hx
      subst this
      simp [List.find?, hx]
    · have hx2 : (x == g) = false := by simpa using hx
      simp only [List.find?, hx2]
      rcases List.mem_cons.mp h with h1 | h1
      · exact absurd (by simp [h1]) hx
      · exact ih h1

theorem find?_beq_none (l : List GoStr) (g : GoStr) (h : ¬ g ∈ l) :
    (l.find? fun x => x == g) = none := by
  refine List.find?_eq_none.mpr fun x hx => ?_
  intro hbeq
  have hxg : x = g := by simpa using hbeq
  subst hxg
  exact h hx

/-- **C7.**  The stats HTTP endpoint: `GET /` answers with the
registered counters rendered as the nested JSON
`{ group: { id: { metric: int64 } } }` keyed by the `(group, id,
metric)` registration tuples — looking up any tuple in the rendered
object agrees with the registry — and every other method or path
receives a 404 response. -/
theorem statServer_spec (reg : CounterRegistry) (method path g i m : GoStr)
    (hmp : method ≠ ['G', 'E', 'T'] ∨ path ≠ ['/']) :
    statHandler reg ['G', 'E', 'T'] ['/'] = .body (countersJSON reg) ∧
    statHandler reg method path = .notFound ∧
    jsonLookup (countersJSON reg) g i m = regLookup reg (g, i, m) := by
  refine ⟨by simp [statHandler], ?_, ?_⟩
  · unfold statHandler
    rcases hmp with h | h
    · rw [if_pos h]
    · by_cases hm : method ≠ ['G', 'E', 'T']
      · rw [if_pos hm]
      · rw [if_neg hm, if_pos h]
  · by_cases hg : g ∈ reg.map fun e => e.1.1
    · unfold jsonLookup countersJSON
      rw [find?_pair_map, find?_beq_self _ g (by simpa using hg)]
      simp only [Option.map_some']
      by_cases hi : i ∈ (reg.filter fun e => e.1.1 == g).map fun e => e.1.2.1
      · rw [find?_pair_map, find?_beq_self _ i (by simpa using hi)]
        simp only [Option.map_some']
        by_cases hm2 : m ∈ (reg.filter fun e => e.1.1 == g && e.1.2.1 == i).map
            fun e => e.1.2.2
        · rw [find?_pair_map, find?_beq_self _ m (by simpa using hm2)]
          simp only [Option.map_some']
          obtain ⟨e0, he0, he0m⟩ := List.mem_map.mp hm2
          obtain ⟨he0r, he0gi⟩ := List.mem_filter.mp he0
          obtain ⟨he0g, he0i⟩ : (e0.1.1 == g) = true ∧ (e0.1.2.1 == i) = true := by
            simpa using he0gi
          have hkey : e0.1 = (g, i, m) := by
            have h1 : e0.1.1 = g := by simpa using he0g
            have h2 : e0.1.2.1 = i := by simpa using he0i
            have h3 : e0.1.2.2 = m := he0m
            cases e0 with
            | mk k v =>
              cases k with
              | mk k1 krest =>
                cases krest with
                | mk k2 k3 =>
                  simp only at h1 h2 h3
                  simp [h1, h2, h3]
          have hex : (regLookup reg (g, i, m)).isSome = true := by
            unfold regLookup
            have : reg.find? (fun e => e.1 == (g, i, m)) ≠ none := by
              intro hnone
              have := List.find?_eq_none.mp hnone e0 he0r
              simp [hkey] at this
            cases hf : reg.find? fun e => e.1 == (g, i, m) with
            | none => exact absurd hf this
            | some e1 => simp
          cases hrl : regLookup reg (g, i, m) with
          | none => rw [hrl] at hex; simp at hex
          | some v => simp [hrl]
        · rw [find?_pair_map, find?_beq_none _ m (by simpa using hm2)]
          simp only [Option.map_none']
          cases hrl : regLookup reg (g, i, m) with
          | none => rfl
          | some v =>
            exfalso
            unfold regLookup at hrl
            cases hf : reg.find? fun e => e.1 == (g, i, m) with
            | none => rw [hf] at hrl; simp at hrl
            | some e1 =>
              have he1r := List.mem_of_find?_eq_some hf
              have he1k : e1.1 = (g, i, m) := by
                have := List.find?_some hf
                simpa using this
              refine hm2 (List.mem_map.mpr ⟨e1, ?_, by rw [he1k]⟩)
              refine List.mem_filter.mpr ⟨he1r, ?_⟩
              rw [he1k]
              simp
      · rw [find?_pair_map, find?_beq_none _ i (by simpa using hi)]
        simp only [Option.map_none']
        cases hrl : regLookup reg (g, i, m) with
        | none => rfl
        | some v =>
          exfalso
          unfold regLookup at hrl
          cases hf : reg.find? fun e => e.1 == (g, i, m) with
          | none => rw [hf] at hrl; simp at hrl
          | some e1 =>
            have he1r := List.mem_of_find?_eq_some hf
            have he1k : e1.1 = (g, i, m) := by
              have := List.find?_some hf
              simpa using this
            refine hi (List.mem_map.mpr ⟨e1, ?_, by rw [he1k]⟩)
            refine List.mem_filter.mpr ⟨he1r, by rw [he1k]; simp⟩
    · unfold jsonLookup countersJSON
      rw [find?_pair_map, find?_beq_none _ g (by simpa using hg)]
      simp only [Option.map_none']
      cases hrl : regLookup reg (g, i, m) with
      | none => rfl
      | some v =>
        exfalso
        unfold regLookup at hrl
        cases hf : reg.find? fun e => e.1 == (g, i, m) with
        | none => rw [hf] at hrl; simp at hrl
        | some e1 =>
          have he1r := List.mem_of_find?_eq_some hf
          have he1k : e1.1 = (g, i, m) := by
            have := List.find?_some hf
            simpa using this
          exact hg (List.mem_map.mpr ⟨e1, he1r, by rw [he1k]⟩)

/-- **C7 (witness).**  A registry with one counter
`("discipline", "d1", "tail_lines") = 3`: `GET /` returns the nested
object, a `POST /` is 404, and the tuple lookup in the JSON agrees. -/
theorem statServer_spec_witness :
    statHandler [((['d'], ['i'], ['t']), 3)] ['G', 'E', 'T'] ['/'] =
      .body (countersJSON [((['d'], ['i'], ['t']), 3)]) ∧
    statHandler [((['d'], ['i'], ['t']), 3)] ['P', 'O', 'S', 'T'] ['/'] =
      .notFound ∧
    jsonLookup (countersJSON [((['d'], ['i'], ['t']), 3)]) ['d'] ['i'] ['t'] =
      some 3 := by
  obtain ⟨h1, h2, h3⟩ := statServer_spec [((['d'], ['i'], ['t']), 3)]
    ['P', 'O', 'S', 'T'] ['/'] ['d'] ['i'] ['t'] (Or.inl (by decide))
  refine ⟨h1, h2, ?_⟩
  rw [h3]
  rfl

/-! ## Regular expressions and `Matcher` (src/utils.go lines 560-637)

The Go `regexp` engine is embedded as a backtracking matcher over a
regex syntax covering the constructs the configuration patterns use
(character classes, concatenation, leftmost-first alternation, bounded
repetition desugared into alternation, named capture groups; unnamed
groups are plain subterms, which `Matcher.Match` skips anyway).  Go's
leftmost-first (Perl-style) match semantics correspond to the
first-success order of this backtracking search. -/

/-- Regex abstract syntax. -/
inductive Regex where
  | eps
  | cls (p : Char → Bool)
  | cat (r1 r2 : Regex)
  | alt (r1 r2 : Regex)
  | group (name : GoStr) (r : Regex)

/-- Capture records: group name and captured text. -/
abbrev Caps := List (GoStr × GoStr)

/-- The backtracking matcher in continuation-passing style.  `k`
receives the remaining suffix and the captures collected on the
successful path. -/
def mrun {β : Type} : Regex → GoStr → Caps → (GoStr → Caps → Option β) → Option β
  | .eps, s, caps, k => k s caps
  | .cls p, s, caps, k =>
    match s with
    | [] => none
    | c :: rest => if p c then k rest caps else none
  | .cat r1 r2, s, caps, k =>
    mrun r1 s caps fun s1 c1 => mrun r2 s1 c1 k
  | .alt r1 r2, s, caps, k =>
    match mrun r1 s caps k with
    | some res => some res
    | none => mrun r2 s caps k
  | .group n r, s, caps, k =>
    mrun r s caps fun s1 c1 =>
      k s1 (c1 ++ [(n, s.take (s.length - s1.length))])

/-- Match a prefix of `s`, returning the matched prefix and captures. -/
def findPrefix (r : Regex) (s : GoStr) : Option (GoStr × Caps) :=
  mrun r s [] fun s1 c1 => some (s.take (s.length - s1.length), c1)

/-- `regexp.FindStringSubmatch` semantics: try each start position from
the left, unanchored. -/
def reFind (r : Regex) : GoStr → Option (GoStr × Caps)
  | [] => findPrefix r []
  | c :: rest =>
    match findPrefix r (c :: rest) with
    | some res => some res
    | none => reFind r rest

/-- `regexp.Regexp.SubexpNames` restricted to named groups, in
syntactic order. -/
def subexpNames : Regex → List GoStr
  | .eps => []
  | .cls _ => []
  | .cat r1 r2 => subexpNames r1 ++ subexpNames r2
  | .alt r1 r2 => subexpNames r1 ++ subexpNames r2
  | .group n r => n :: subexpNames r

/-- The submatch text of a named group: the last capture on the match
path (Go keeps the last occurrence), empty when the group did not
participate. -/
def capsGet (caps : Caps) (n : GoStr) : GoStr :=
  match caps.reverse.find? fun e => e.1 == n with
  | some e => e.2
  | none => []

/-- `KeyValue` (src/config.go lines 85-88). -/
structure KeyValue where
  key : GoStr
  value : GoStr
  deriving Repr, DecidableEq

/-- `KeyValueList` (src/config.go line 90). -/
abbrev KeyValueList := List KeyValue

/-- `KeyValueList.Get` (src/config.go lines 92-99): first match wins,
missing keys give the empty string. -/
def KeyValueList.get (k : KeyValueList) (key : GoStr) : GoStr :=
  match k.find? fun kv => kv.key == key with
  | some kv => kv.value
  | none => []

/-- `Matcher` (src/utils.go lines 560-562). -/
structure Matcher where
  regexList : List Regex

/-- The loop of `Matcher.Match` (src/utils.go lines 619-637): the first
pattern that matches yields `(empty key, full match)` followed by one
entry per named group. -/
def matchList : List Regex → GoStr → KeyValueList
  | [], _ => []
  | r :: rest, s =>
    match reFind r s with
    | some res =>
      ⟨[], res.1⟩ :: (subexpNames r).map fun n => ⟨n, capsGet res.2 n⟩
    | none => matchList rest s

/-- `Matcher.Match` (src/utils.go lines 619-637). -/
def Matcher.matchStr (m : Matcher) (s : GoStr) : KeyValueList :=
  matchList m.regexList s

/-- `Matcher.Test` (src/utils.go lines 615-617). -/
def Matcher.test (m : Matcher) (s : GoStr) : Bool :=
  0 < (m.matchStr s).length

/-- `r{n}`: exactly `n` copies. -/
def repExact : Nat → Regex → Regex
  | 0, _ => .eps
  | n + 1, r => .cat r (repExact n r)

/-- Up to `n` copies, greedy (the consuming branch is tried first, as
Go's backtracking prefers). -/
def upTo : Nat → Regex → Regex
  | 0, _ => .eps
  | n + 1, r => .alt (.cat r (upTo n r)) .eps

/-- `r{lo,hi}`. -/
def repRange (lo hi : Nat) (r : Regex) : Regex :=
  .cat (repExact lo r) (upTo (hi - lo) r)

/-- `[0-9]`. -/
def isDigitCh (c : Char) : Bool :=
  decide ('0' ≤ c ∧ c ≤ '9')

/-- `[0-9a-fA-F]`. -/
def isHexCh (c : Char) : Bool :=
  decide (('0' ≤ c ∧ c ≤ '9') ∨ ('a' ≤ c ∧ c ≤ 'f') ∨ ('A' ≤ c ∧ c ≤ 'F'))

/-- A literal character. -/
def chr (c : Char) : Regex :=
  .cls (· == c)

/-- The canonical capture `regexReplacer` substitutes for `%(ip)`
(src/utils.go lines 582-586):
the named group `ip` over `(([0-9a-fA-F]{0,4}:){1,7}[0-9a-fA-F]{0,4})`
or a dotted quad `[0-9]{1,3}(\.[0-9]{1,3}){3}`; the unnamed source
groups are plain subterms. -/
def ipPattern : Regex :=
  .group ['i', 'p'] (.alt
    (.cat (repRange 1 7 (.cat (repRange 0 4 (.cls isHexCh)) (chr ':')))
      (repRange 0 4 (.cls isHexCh)))
    (.cat (repRange 1 3 (.cls isDigitCh))
      (repExact 3 (.cat (chr '.') (repRange 1 3 (.cls isDigitCh))))))

/-! ## `net.ParseIP` and `net.IP.String` (Go standard library)

`net.ParseIP` delegates to `netip.ParseAddr` (rejecting zones) and
returns the 16-byte form (`As16`); `net.IP.String` renders the 4-byte
form dotted and the 16-byte form per RFC 5952 via `netip`. -/

/-- The dispatch scan of `netip.ParseAddr`: the first `.`, `:` or `%`
decides the parser. -/
def firstSpecial : GoStr → Option Char
  | [] => none
  | c :: cs =>
    if c = '.' ∨ c = ':' ∨ c = '%' then some c else firstSpecial cs

/-- One field of `netip.parseIPv4`: 1-3 digits, no leading zero,
value at most 255. -/
def parseV4Field (f : GoStr) : Option Nat :=
  if f.isEmpty then none
  else if ¬ (f.all fun c => decide ('0' ≤ c ∧ c ≤ '9')) = true then none
  else if 3 < f.length then none
  else if 1 < f.length ∧ f.headD '0' = '0' then none
  else
    let v := f.foldl (fun a c => a * 10 + (c.toNat - 48)) 0
    if 255 < v then none else some v

/-- `netip.parseIPv4`. -/
def parseIPv4 (s : GoStr) : Option (List Nat) :=
  match goSplit '.' s with
  | [a, b, c, d] =>
    match parseV4Field a, parseV4Field b, parseV4Field c, parseV4Field d with
    | some x, some y, some z, some w => some [x, y, z, w]
    | _, _, _, _ => none
  | _ => none

/-- Hexadecimal digit value. -/
def hexVal (c : Char) : Option Nat :=
  if '0' ≤ c ∧ c ≤ '9' then some (c.toNat - 48)
  else if 'a' ≤ c ∧ c ≤ 'f' then some (c.toNat - 87)
  else if 'A' ≤ c ∧ c ≤ 'F' then some (c.toNat - 55)
  else none

/-- The hex-chunk scan of `netip.parseIPv6`: accumulate hex digits,
failing when the field value exceeds `0xFFFF` (the code bounds the
value, not the digit count).  Returns value, digit count, rest. -/
def readHexChunk (acc cnt : Nat) : GoStr → Except Unit (Nat × Nat × GoStr)
  | [] => .ok (acc, cnt, [])
  | c :: cs =>
    match hexVal c with
    | none => .ok (acc, cnt, c :: cs)
    | some v =>
      let acc1 := acc * 16 + v
      if 65535 < acc1 then .error ()
      else readHexChunk acc1 (cnt + 1) cs

/-- The field loop of `netip.parseIPv6`.  Returns the bytes read, the
byte position of a `::` if any, and the unconsumed rest.  Each
iteration consumes at least one character, so `fuel = length + 2`
suffices. -/
def parseIPv6Loop (fuel : Nat) (ip : List Nat) (ellipsis : Option Nat) (s : GoStr) :
    Option (List Nat × Option Nat × GoStr) :=
  match fuel with
  | 0 => none
  | f + 1 =>
    if 16 ≤ ip.length then some (ip, ellipsis, s)
    else
      match readHexChunk 0 0 s with
      | .error _ => none
      | .ok (acc, cnt, rest) =>
        if cnt = 0 then none
        else if ¬ rest.isEmpty ∧ rest.headD ' ' = '.' then
          if ellipsis.isNone ∧ ip.length ≠ 12 then none
          else if 16 < ip.length + 4 then none
          else
            match parseIPv4 s with
            | none => none
            | some b4 => some (ip ++ b4, ellipsis, [])
        else
          let ip1 := ip ++ [acc / 256, acc % 256]
          if rest.isEmpty then some (ip1, ellipsis, [])
          else
            match rest with
            | ':' :: rest1 =>
              if rest1.isEmpty then none
              else
                match rest1 with
                | ':' :: rest2 =>
                  if ellipsis.isSome then none
                  else if rest2.isEmpty then some (ip1, some ip1.length, [])
                  else parseIPv6Loop f ip1 (some ip1.length) rest2
                | _ => parseIPv6Loop f ip1 ellipsis rest1
            | _ => none

/-- The post-loop checks of `netip.parseIPv6`: no trailing input, and
the `::` expands to the missing zero bytes (there must be some). -/
def parseIPv6Finish (ip : List Nat) (ell : Option Nat) (leftover : GoStr) :
    Option IP :=
  if ¬ leftover.isEmpty then none
  else if ip.length < 16 then
    match ell with
    | none => none
    | some e => some (ip.take e ++ List.replicate (16 - ip.length) 0 ++ ip.drop e)
  else if ell.isSome then none
  else some ip

/-- `netip.parseIPv6` without zones: a `%` means a zone
(`netip` rejects an empty one, `net.parseIP` a nonempty one), so any
`%` makes `net.ParseIP` fail. -/
def parseIPv6 (s0 : GoStr) : Option IP :=
  if '%' ∈ s0 then none
  else
    match s0 with
    | ':' :: ':' :: rest =>
      if rest.isEmpty then some (List.replicate 16 0)
      else
        match parseIPv6Loop (s0.length + 2) [] (some 0) rest with
        | none => none
        | some r => parseIPv6Finish r.1 r.2.1 r.2.2
    | _ =>
      match parseIPv6Loop (s0.length + 2) [] none s0 with
      | none => none
      | some r => parseIPv6Finish r.1 r.2.1 r.2.2

/-- `net.ParseIP`: dispatch on the first special character and return
the 16-byte form. -/
def parseIP (s : GoStr) : Option IP :=
  match firstSpecial s with
  | some '.' => (parseIPv4 s).map fun b => v4InV6Prefix ++ b
  | some ':' => parseIPv6 s
  | _ => none

/-- Decimal digits of a byte (`fmt`-style, reusing `fmtInt`). -/
def natDec (n : Nat) : GoStr :=
  fmtInt n []

/-- `netip.appendHex`: minimal lowercase hex digits of a 16-bit group. -/
def hexGroup (x : Nat) : GoStr :=
  let dig := fun (v : Nat) => Char.ofNat (if v < 10 then v + 48 else v + 87)
  (if 0x1000 ≤ x then [dig (x / 4096)] else []) ++
  (if 0x100 ≤ x then [dig (x / 256 % 16)] else []) ++
  (if 0x10 ≤ x then [dig (x / 16 % 16)] else []) ++
  [dig (x % 16)]

/-- The 16-bit group `j` of a 16-byte address. -/
def v6u16 (ip : IP) (j : Nat) : Nat :=
  ip.getD (2 * j) 0 * 256 + ip.getD (2 * j + 1) 0

/-- Length of the zero-group run starting at group `j` (8 groups). -/
def zeroRunFrom (ip : IP) : Nat → Nat → Nat
  | 0, _ => 0
  | f + 1, j => if j < 8 ∧ v6u16 ip j = 0 then 1 + zeroRunFrom ip f (j + 1) else 0

/-- The zero-run search of `netip.Addr.appendTo6`: the leftmost longest
run of at least two zero groups, `(255, 255)` when none. -/
def findZeroRun (ip : IP) : Nat × Nat :=
  (List.range 8).foldl
    (fun best i =>
      let l := zeroRunFrom ip 8 i
      if 2 ≤ l ∧ best.2 - best.1 < l then (i, i + l) else best)
    (255, 255)

/-- The output loop of `netip.Addr.appendTo6`. -/
def v6loop (ip : IP) (zs ze : Nat) : Nat → Nat → GoStr
  | 0, _ => []
  | f + 1, i =>
    if 8 ≤ i then []
    else if i = zs then
      ':' :: ':' ::
        (if 8 ≤ ze then []
         else hexGroup (v6u16 ip ze) ++ v6loop ip zs ze f (ze + 1))
    else if 0 < i then ':' :: hexGroup (v6u16 ip i) ++ v6loop ip zs ze f (i + 1)
    else hexGroup (v6u16 ip i) ++ v6loop ip zs ze f (i + 1)

/-- `net.hexString`: two hex digits per byte. -/
def hexAll (b : GoBytes) : GoStr :=
  b.flatMap fun x =>
    [Char.ofNat (if x / 16 < 10 then x / 16 + 48 else x / 16 + 87),
     Char.ofNat (if x % 16 < 10 then x % 16 + 48 else x % 16 + 87)]

/-- `net.IP.String`. -/
def ipString (ip : IP) : GoStr :=
  if ip.length = 0 then ['<', 'n', 'i', 'l', '>']
  else
    match ipTo4 ip with
    | some p4 =>
      natDec (p4.getD 0 0) ++ '.' :: natDec (p4.getD 1 0) ++
        '.' :: natDec (p4.getD 2 0) ++ '.' :: natDec (p4.getD 3 0)
    | none =>
      if ip.length = 16 then
        let zr := findZeroRun ip
        v6loop ip zr.1 zr.2 9 0
      else '?' :: hexAll ip

/-! ## `RegexDiscipline.Judge` (src/discipline.go lines 63-104) -/

/-- `Line` (src/config.go lines 38-41). -/
structure Line where
  watchID : GoStr
  text : GoStr
  deriving Repr, DecidableEq

/-- `BadLog` (src/config.go lines 127-134). -/
structure BadLog where
  line : GoStr
  watchID : GoStr
  disciplineID : GoStr
  ip : IP
  extend : KeyValueList
  ipLocation : GoStr
  deriving Repr, DecidableEq

/-- `NewBadLog` (src/config.go lines 136-144). -/
def NewBadLog (l : Line) (disciplineID : GoStr) (ip : IP)
    (extend : KeyValueList) : BadLog :=
  { line := l.text, watchID := l.watchID, disciplineID := disciplineID,
    ip := ip, extend := extend, ipLocation := [] }

/-- The zero `BadLog` value returned on the false branches. -/
def badLogZero : BadLog :=
  { line := [], watchID := [], disciplineID := [], ip := [],
    extend := [], ipLocation := [] }

/-- The per-discipline counters of `RegexDiscipline`
(src/discipline.go lines 19-24), as explicit state. -/
structure DiscCounters where
  tailLines : Int
  matchLines : Int
  badIP : Int
  allowIP : Int
  watchIP : Int
  arrestIP : Int
  deriving Repr, DecidableEq

/-- `RegexDiscipline` (src/discipline.go lines 12-25): the `Matches`,
`Ignores` and `Rate` pointers may be nil (`Option`). -/
structure RegexDiscipline where
  id : GoStr
  «matches» : Option Matcher
  ignores : Option Matcher
  rate : Option Limiter
  allows : Allows

/-- `RegexDiscipline.Judge` (src/discipline.go lines 63-104), with
`time.Now()` passed as `now` and the limiter/counters state returned
explicitly.  Logging has no sequential content. -/
def RegexDiscipline.judge (rd : RegexDiscipline) (cnt : DiscCounters) (now : Int)
    (line : Line) (allow : Allows) :
    (BadLog × Bool) × RegexDiscipline × DiscCounters :=
  let cnt1 := { cnt with tailLines := cnt.tailLines + 1 }
  if line.text = [] ∨ rd.«matches».isNone then ((badLogZero, false), rd, cnt1)
  else
    let groups := (rd.«matches».getD ⟨[]⟩).matchStr line.text
    if groups.length = 0 then ((badLogZero, false), rd, cnt1)
    else if (match rd.ignores with
        | some ig => ig.test (KeyValueList.get groups [])
        | none => false) then
      ((badLogZero, false), rd, cnt1)
    else
      let cnt2 := { cnt1 with matchLines := cnt1.matchLines + 1 }
      match parseIP (KeyValueList.get groups ['i', 'p']) with
      | none => ((badLogZero, false), rd, { cnt2 with badIP := cnt2.badIP + 1 })
      | some ip =>
        if Allows.contains allow ip || Allows.contains rd.allows ip then
          ((badLogZero, false), rd, { cnt2 with allowIP := cnt2.allowIP + 1 })
        else
          let sip := ipString ip
          let r := LimiterOpt.add rd.rate now sip
          let rd1 := { rd with rate := r.2.2 }
          if r.2.1 then
            ((NewBadLog line rd.id ip groups, true), rd1,
              { cnt2 with arrestIP := cnt2.arrestIP + 1 })
          else
            ((badLogZero, false), rd1,
              { cnt2 with watchIP := cnt2.watchIP + 1 })

/-! ## C5: matches are substrings; the ip capture need not parse -/

/-- CPS invariant: a successful run calls the continuation on a suffix
of the input, with every new capture an infix of the input. -/
theorem mrun_suffix_caps {β : Type} (r : Regex) :
    ∀ (s : GoStr) (caps : Caps) (k : GoStr → Caps → Option β) (res : β),
      mrun r s caps k = some res →
      ∃ s1 c1, (s1 <:+ s) ∧
        (∀ e ∈ c1, e ∈ caps ∨ e.2 <:+: s) ∧
        k s1 c1 = some res := by
  induction r with
  | eps =>
    intro s caps k res h
    exact ⟨s, caps, List.suffix_refl s, fun e he => Or.inl he, h⟩
  | cls p =>
    intro s caps k res h
    cases s with
    | nil => simp [mrun] at h
    | cons c rest =>
      simp only [mrun] at h
      split_ifs at h
      exact ⟨rest, caps, (List.suffix_cons c rest), fun e he => Or.inl he, h⟩
  | cat r1 r2 ih1 ih2 =>
    intro s caps k res h
    simp only [mrun] at h
    obtain ⟨s1, c1, hs1, hc1, hk1⟩ := ih1 s caps _ res h
    obtain ⟨s2, c2, hs2, hc2, hk2⟩ := ih2 s1 c1 k res hk1
    refine ⟨s2, c2, hs2.trans hs1, ?_, hk2⟩
    intro e he
    rcases hc2 e he with h1 | h1
    · rcases hc1 e h1 with h2 | h2
      · exact Or.inl h2
      · exact Or.inr h2
    · exact Or.inr (h1.trans hs1.isInfix)
  | alt r1 r2 ih1 ih2 =>
    intro s caps k res h
    simp only [mrun] at h
    cases hm : mrun r1 s caps k with
    | some res2 =>
      rw [hm] at h
      cases h
      exact ih1 s caps k _ hm
    | none =>
      rw [hm] at h
      exact ih2 s caps k res h
  | group n r ihr =>
    intro s caps k res h
    simp only [mrun] at h
    obtain ⟨s1, c1, hs1, hc1, hk⟩ := ihr s caps _ res h
    refine ⟨s1, c1 ++ [(n, s.take (s.length - s1.length))], hs1, ?_, hk⟩
    intro e he
    rcases List.mem_append.mp he with h1 | h1
    · exact hc1 e h1
    · have he2 : e = (n, s.take (s.length - s1.length)) := by simpa using h1
      subst he2
      exact Or.inr (List.take_prefix _ s).isInfix

/-- A prefix match produces a prefix of the input and infix captures. -/
theorem findPrefix_parts (r : Regex) (s m0 : GoStr) (caps : Caps)
    (h : findPrefix r s = some (m0, caps)) :
    (m0 <+: s) ∧ ∀ e ∈ caps, e.2 <:+: s := by
  obtain ⟨s1, c1, hs1, hc1, hk⟩ := mrun_suffix_caps r s [] _ _ h
  obtain ⟨hm0, hcaps⟩ : m0 = s.take (s.length - s1.length) ∧ caps = c1 := by
    have := hk
    simp only [Option.some.injEq, Prod.mk.injEq] at this
    exact ⟨this.1.symm, this.2.symm⟩
  subst hm0
  subst hcaps
  refine ⟨List.take_prefix _ s, fun e he => ?_⟩
  rcases hc1 e he with h1 | h1
  · simp at h1
  · exact h1

/-- `reFind` produces an infix of the input and infix captures. -/
theorem reFind_parts (r : Regex) :
    ∀ (s m0 : GoStr) (caps : Caps), reFind r s = some (m0, caps) →
      (m0 <:+: s) ∧ ∀ e ∈ caps, e.2 <:+: s := by
  intro s
  induction s with
  | nil =>
    intro m0 caps h
    obtain ⟨h1, h2⟩ := findPrefix_parts r [] m0 caps h
    exact ⟨h1.isInfix, h2⟩
  | cons c rest ih =>
    intro m0 caps h
    simp only [reFind] at h
    cases hf : findPrefix r (c :: rest) with
    | some res =>
      rw [hf] at h
      injection h with h
      subst h
      obtain ⟨h1, h2⟩ := findPrefix_parts r (c :: rest) m0 caps hf
      exact ⟨h1.isInfix, h2⟩
    | none =>
      rw [hf] at h
      obtain ⟨h1, h2⟩ := ih m0 caps h
      have hext : rest <:+: c :: rest := (List.suffix_cons c rest).isInfix
      exact ⟨h1.trans hext, fun e he => (h2 e he).trans hext⟩

/-- A submatch value is an infix of the input whenever all captures are. -/
theorem capsGet_infix (caps : Caps) (s n : GoStr)
    (h : ∀ e ∈ caps, e.2 <:+: s) : capsGet caps n <:+: s := by
  unfold capsGet
  cases hf : caps.reverse.find? fun e => e.1 == n with
  | none => exact List.nil_infix
  | some e =>
    have hmem : e ∈ caps.reverse := List.mem_of_find?_eq_some hf
    exact h e (List.mem_reverse.mp hmem)

theorem matchList_substring (rl : List Regex) (s : GoStr) :
    ∀ kv2 ∈ matchList rl s, kv2.value <:+: s := by
  induction rl with
  | nil => intro kv2 h2; simp [matchList] at h2
  | cons r rest ih =>
    intro kv2 h2
    simp only [matchList] at h2
    cases hf : reFind r s with
    | some res =>
      rw [hf] at h2
      obtain ⟨h1, hcaps⟩ := reFind_parts r s res.1 res.2 (by rw [hf])
      rcases List.mem_cons.mp h2 with h3 | h3
      · subst h3
        exact h1
      · obtain ⟨n, -, hkv⟩ := List.mem_map.mp h3
        rw [← hkv]
        exact capsGet_infix res.2 s n hcaps
    | none =>
      rw [hf] at h2
      exact ih kv2 h2

/-- The head entry of a successful match carries the empty key. -/
theorem matchList_head_key (rl : List Regex) (s : GoStr) :
    ∀ (kv : KeyValue) (rest : List KeyValue),
      matchList rl s = kv :: rest → kv.key = [] := by
  induction rl with
  | nil => intro kv rest h; simp [matchList] at h
  | cons r rl ih =>
    intro kv rest h
    simp only [matchList] at h
    cases hf : reFind r s with
    | some res =>
      rw [hf] at h
      have := (List.cons.injEq _ _ _ _).mp h
      rw [← this.1]
    | none =>
      rw [hf] at h
      exact ih kv rest h

/-- **C5 (amended).**  For every matcher whose patterns each carry the
named `ip` capture (the `%(ip)` substitution) and every input `s`: if
`test s` holds then `match s` is nonempty, its first entry is the full
match — a substring of `s` with the empty key — and every entry's value
(the `ip` capture included) is again a substring of `s`; the `ip` text
need not parse as a valid address (see the counterexample), which is
why `Judge` counts `bad_ip` when `net.ParseIP` rejects it. -/
theorem matcher_match_substring (m : Matcher) (s : GoStr)
    (ht : m.test s = true) :
    ∃ kv rest, m.matchStr s = kv :: rest ∧ kv.key = [] ∧ kv.value <:+: s ∧
      ∀ kv2 ∈ m.matchStr s, kv2.value <:+: s := by
  have hall : ∀ kv2 ∈ m.matchStr s, kv2.value <:+: s :=
    matchList_substring m.regexList s
  unfold Matcher.test at ht
  cases hm : m.matchStr s with
  | nil => rw [hm] at ht; simp at ht
  | cons kv rest =>
    refine ⟨kv, rest, rfl, matchList_head_key m.regexList s kv rest hm,
      ?_, ?_⟩
    · exact (hm ▸ hall) kv (List.mem_cons_self kv rest)
    · exact hm ▸ hall

/-- **C5 (witness).**  Concrete instance of `matcher_match_substring`
for the `%(ip)` matcher on `1.2.3.4`: the head entry of the match has
the empty key and its value is a substring of the input. -/
theorem matcher_match_substring_witness :
    ((Matcher.matchStr ⟨[ipPattern]⟩ ['1', '.', '2', '.', '3', '.', '4']).headD
      ⟨['x'], []⟩).key = [] ∧
    ((Matcher.matchStr ⟨[ipPattern]⟩ ['1', '.', '2', '.', '3', '.', '4']).headD
      ⟨['x'], []⟩).value <:+: ['1', '.', '2', '.', '3', '.', '4'] := by
  obtain ⟨kv, rest, hm, hk, hv, -⟩ :=
    matcher_match_substring ⟨[ipPattern]⟩ ['1', '.', '2', '.', '3', '.', '4']
      (by decide)
  rw [hm]
  exact ⟨hk, hv⟩

/-- **C5 (counterexample).**  The claim additionally asserts that the
`ip` entry always parses to a valid address.  The input
`999.999.999.999` refutes it: the canonical IPv4 branch of `%(ip)`
matches any 1-3 digit octets, the `ip` capture is the whole string, yet
`net.ParseIP` rejects octets above 255 — precisely the case the
discipline counts as `bad_ip` (src/discipline.go lines 81-87). -/
theorem matcher_ip_parse_cex :
    Matcher.test ⟨[ipPattern]⟩
      ['9', '9', '9', '.', '9', '9', '9', '.', '9', '9', '9', '.', '9', '9', '9'] =
      true ∧
    KeyValueList.get
      (Matcher.matchStr ⟨[ipPattern]⟩
        ['9', '9', '9', '.', '9', '9', '9', '.', '9', '9', '9', '.', '9', '9', '9'])
      ['i', 'p'] =
      ['9', '9', '9', '.', '9', '9', '9', '.', '9', '9', '9', '.', '9', '9', '9'] ∧
    parseIP
      ['9', '9', '9', '.', '9', '9', '9', '.', '9', '9', '9', '.', '9', '9', '9'] =
      none := by
  refine ⟨by decide, by decide, by decide⟩

/-! ## C2: a fired verdict's address passed both allow lists -/

/-- **C2.**  Whenever `Judge` returns a verdict with `fire = true`, the
verdict's address is contained in neither the global allow list nor the
discipline-local one: both `Contains` checks were evaluated to false
before the verdict was built. -/
theorem regexDiscipline_judge_allow_spec
    (rd : RegexDiscipline) (cnt : DiscCounters) (now : Int) (line : Line)
    (allow : Allows) (bad : BadLog) (rd2 : RegexDiscipline)
    (cnt2 : DiscCounters)
    (h : rd.judge cnt now line allow = ((bad, true), rd2, cnt2)) :
    Allows.contains allow bad.ip = false ∧
    Allows.contains rd.allows bad.ip = false := by
  unfold RegexDiscipline.judge at h
  dsimp only at h
  split at h
  · simp at h
  · split at h
    · simp at h
    · split at h
      · simp at h
      · split at h
        · simp at h
        · rename_i ip hip
          split at h
          · simp at h
          · rename_i hallow
            split at h
            · simp only [Bool.or_eq_true, not_or, Bool.not_eq_true]
                at hallow
              have hbad : NewBadLog line rd.id ip
                  ((rd.«matches».getD ⟨[]⟩).matchStr line.text) = bad :=
                congrArg (fun x => x.1.1) h
              rw [← hbad]
              exact hallow
            · simp at h

/-- **C2 (witness).**  Concrete instance: a regex discipline with the
`%(ip)` matcher, nil rate (fires immediately) and empty allow lists on
the line `x 1.2.3.4`; the fired verdict's address is allowed by
neither list. -/
theorem regexDiscipline_judge_allow_spec_witness :
    Allows.contains [] (v4InV6Prefix ++ [1, 2, 3, 4]) = false := by
  have h := regexDiscipline_judge_allow_spec
    ⟨['d'], some ⟨[ipPattern]⟩, none, none, []⟩ ⟨0, 0, 0, 0, 0, 0⟩ 0
    ⟨['w'], ['x', ' ', '1', '.', '2', '.', '3', '.', '4']⟩ [] _ _ _ rfl
  exact h.1

end Go2Jail
